import Mathlib

/-!
Verification of the CopyClone directory-replication script (src/CopyClone.py).

The script is modelled on a POSIX host (the Unix branches of the platform
conditionals): paths are represented as lists of path components relative to
the source root and the destination root, so that the string manipulations of
os.path (join, relpath, basename) become list operations on components.
The source tree is a finite tree of named files and subdirectories; the
destination is the set of directories created so far plus an association list
from (directory path, file name) keys to file contents.  Copy failures
(PermissionError / other exceptions raised by shutil.copy2) are supplied by an
oracle mapping a source file location to an optional error kind, which is the
only nondeterminism of one run.  os.makedirs, which raises FileExistsError
when its target already exists, is modelled in an Except monad, and the
exception propagation of the walk loop is the Except bind.
-/

namespace CopyClone

/-- A path relative to the source root (or, mirrored, to the destination
root), as a list of path components. -/
abbrev RelPath := List String

mutual

/-- The source tree: a directory holds a list of (file name, file content)
pairs and a list of named subdirectories. -/
inductive FSTree where
| mk (files : List (String × String)) (subdirs : SubdirList)

/-- The list of named subdirectories of a directory node. -/
inductive SubdirList where
| nil
| cons (name : String) (t : FSTree) (rest : SubdirList)

end

/-- Error kinds that `shutil.copy2` can raise for one file: a
`PermissionError` or any other exception. -/
inductive CopyErr where
| permission
| other
deriving DecidableEq

/-- The copy-failure oracle: which files raise which exception when copied. -/
abbrev ErrOracle := RelPath → String → Option CopyErr

/-- The per-file outcome, as recorded by the log statements of the loop body
of `copy_files_and_folders`. -/
inductive Outcome where
| Copied
| SkippedHidden
| SkippedExcluded
| SkippedPermissionDenied
| SkippedOtherError
deriving DecidableEq

/-- The destination filesystem state: the set of directories that exist
(as relative paths; `[]` is the destination root) and the files present,
keyed by (directory path, file name). -/
structure Dest where
  dirs : List RelPath
  files : List ((RelPath × String) × String)
deriving DecidableEq

/-- The destination before the run, when the destination root does not exist
yet. -/
def Dest.empty : Dest := { dirs := [], files := [] }

/-- The mutable state of one `copy_files_and_folders` run: the destination,
the `copied_files` counter, the number of `progress_bar.update(1)` calls made
so far, and the log records emitted so far. -/
structure WalkState where
  dest : Dest
  copied : Nat
  progress : Nat
  log : List (RelPath × String × Outcome)
deriving DecidableEq

/-- `is_hidden` (Unix branch): the base name of the entry starts with a dot
(`name.startswith('.')`, stated over the character list of the name).
The Windows branch queries a platform attribute API and is outside the
modelled POSIX platform.  The function is applied to the final path
component, which is what `os.path.basename(os.path.abspath(filepath))`
extracts from the joined path the script passes in. -/
def is_hidden (name : String) : Bool :=
  match name.toList with
  | [] => false
  | c :: _ => c = '.'

/-- Membership of a character in a parsed fnmatch bracket expression,
with `a-b` ranges (a hyphen first or last in the list is a literal, and an
inverted range matches nothing, as in CPython fnmatch.translate). -/
def inClass : List Char → Char → Bool
| [], _ => false
| a :: sep :: b :: rest, c =>
    if sep = '-' then (a ≤ c && c ≤ b) || inClass rest c
    else a == c || inClass (sep :: b :: rest) c
| a :: rest, c => a == c || inClass rest c

/-- Scan a bracket expression for its closing bracket: returns the member
characters and the remainder of the pattern, or none when the bracket is
unterminated. -/
def scanClass : List Char → Option (List Char × List Char)
| [] => none
| c :: rest =>
    if c = ']' then some ([], rest)
    else (scanClass rest).map (fun p => (c :: p.1, p.2))

/-- Parse the body of a bracket expression (the characters after the
opening bracket): an optional leading `!` negates the class, and a `]`
directly after the opening (or after `!`) is a literal member, as in
CPython fnmatch.translate. -/
def parseBracket (cs : List Char) : Option (Bool × List Char × List Char) :=
  match cs with
  | '!' :: ']' :: rest => (scanClass rest).map (fun p => (true, ']' :: p.1, p.2))
  | '!' :: rest => (scanClass rest).map (fun p => (true, p.1, p.2))
  | ']' :: rest => (scanClass rest).map (fun p => (false, ']' :: p.1, p.2))
  | _ => (scanClass cs).map (fun p => (false, p.1, p.2))

/-- POSIX `fnmatch.fnmatch` pattern matching over character lists:
`*` matches any sequence, `?` any single character, `[...]` a bracket
expression (literal `[` when unterminated); other characters match
themselves.  On POSIX `os.path.normcase` is the identity, so matching is
case-sensitive. -/
def globMatch : List Char → List Char → Bool
| [], s => s.isEmpty
| '*' :: ps, s =>
    globMatch ps s ||
      (match s with
       | [] => false
       | _ :: cs => globMatch ('*' :: ps) cs)
| '?' :: ps, s =>
    (match s with
     | [] => false
     | _ :: cs => globMatch ps cs)
| '[' :: ps, s =>
    (match parseBracket ps with
     | some (neg, items, rest) =>
        (match s with
         | [] => false
         | c :: cs => (inClass items c != neg) && globMatch rest cs)
     | none =>
        (match s with
         | [] => false
         | c :: cs => (c == '[') && globMatch ps cs))
| p :: ps, s =>
    (match s with
     | [] => false
     | c :: cs => (p == c) && globMatch ps cs)
termination_by p s => (s.length, p.length)

/-- `fnmatch.fnmatch(name, pat)` on POSIX. -/
def fnmatch (name pat : String) : Bool := globMatch pat.toList name.toList

/-- The exclusion test of the loop body:
`any(fnmatch.fnmatch(file, f"*.\x7bext\x7d") for ext in exclude_extensions)`. -/
def isExcluded (file : String) (exts : List String) : Bool :=
  exts.any (fun ext => fnmatch file ("*." ++ ext))

/-- Replace the content stored under a key of the destination file list, or
append the file when the key is absent: the effect of `shutil.copy2`
writing `dest_dir/file`. -/
def writeFile (fs : List ((RelPath × String) × String)) (k : RelPath × String)
    (c : String) : List ((RelPath × String) × String) :=
  match fs with
  | [] => [(k, c)]
  | e :: rest => if e.1 = k then (k, c) :: rest else e :: writeFile rest k c

/-- Look a key up in the destination file list (first match). -/
def lookupFile (fs : List ((RelPath × String) × String)) (k : RelPath × String) :
    Option String :=
  match fs with
  | [] => none
  | e :: rest => if e.1 = k then some e.2 else lookupFile rest k

/-- All the directories `os.makedirs(dst/rel)` creates: the destination root
`[]`, every proper ancestor of `rel`, and `rel` itself. -/
def dirChain (rel : RelPath) : List RelPath :=
  (List.range (rel.length + 1)).map (fun i => rel.take i)

/-- Record a directory as existing (no duplicate records). -/
def addDir (ds : List RelPath) (q : RelPath) : List RelPath :=
  if q ∈ ds then ds else ds ++ [q]

/-- `os.makedirs(dst/rel)`: raises FileExistsError when the target directory
already exists, otherwise creates the target and all its missing
ancestors. -/
def makedirs (D : Dest) (rel : RelPath) : Except String Dest :=
  if rel ∈ D.dirs then Except.error "FileExistsError"
  else Except.ok { D with dirs := (dirChain rel).foldl addDir D.dirs }

/-- The loop body of `copy_files_and_folders` for one file of the directory
at `rel`: skip hidden files (no progress update), skip excluded files (no
progress update), otherwise create the destination directory when absent,
attempt the copy catching PermissionError and any other exception, and
update the progress bar. -/
def processFile (E : List String) (err : ErrOracle) (rel : RelPath)
    (st : WalkState) (name content : String) : Except String WalkState :=
  if is_hidden name then
    Except.ok { st with log := st.log ++ [(rel, name, Outcome.SkippedHidden)] }
  else if isExcluded name E then
    Except.ok { st with log := st.log ++ [(rel, name, Outcome.SkippedExcluded)] }
  else
    match (if rel ∈ st.dest.dirs then Except.ok st.dest else makedirs st.dest rel) with
    | Except.error e => Except.error e
    | Except.ok D =>
      match err rel name with
      | none =>
        Except.ok { dest := { D with files := writeFile D.files (rel, name) content },
                    copied := st.copied + 1, progress := st.progress + 1,
                    log := st.log ++ [(rel, name, Outcome.Copied)] }
      | some CopyErr.permission =>
        Except.ok { st with
          dest := D, progress := st.progress + 1,
          log := st.log ++ [(rel, name, Outcome.SkippedPermissionDenied)] }
      | some CopyErr.other =>
        Except.ok { st with
          dest := D, progress := st.progress + 1,
          log := st.log ++ [(rel, name, Outcome.SkippedOtherError)] }

/-- The inner `for file in files` loop over the files of one directory. -/
def processFiles (E : List String) (err : ErrOracle) (rel : RelPath) :
    List (String × String) → WalkState → Except String WalkState
| [], st => Except.ok st
| (n, c) :: rest, st =>
    match processFile E err rel st n c with
    | Except.error e => Except.error e
    | Except.ok st2 => processFiles E err rel rest st2

/-- `dirs[:] = [d for d in dirs if not is_hidden(os.path.join(root, d))]`:
the pruning of hidden subdirectories from the descent set. -/
def filterVisible : SubdirList → SubdirList
| SubdirList.nil => SubdirList.nil
| SubdirList.cons d t rest =>
    if is_hidden d then filterVisible rest
    else SubdirList.cons d t (filterVisible rest)

/-- The pruned list never grows. -/
theorem sizeOf_filterVisible : (l : SubdirList) → sizeOf (filterVisible l) ≤ sizeOf l
| SubdirList.nil => by simp [filterVisible]
| SubdirList.cons d t rest => by
    have ih := sizeOf_filterVisible rest
    simp only [filterVisible]
    split
    · simp only [SubdirList.cons.sizeOf_spec]
      omega
    · simp only [SubdirList.cons.sizeOf_spec]
      omega

mutual

/-- The `for root, dirs, files in os.walk(src)` loop, started at the
directory `rel` of the source tree: prune hidden subdirectories, process the
files of this directory, then descend into the surviving subdirectories
top-down. -/
def walkDir (E : List String) (err : ErrOracle) (rel : RelPath) (t : FSTree)
    (st : WalkState) : Except String WalkState :=
  match t with
  | FSTree.mk files subdirs =>
      match processFiles E err rel files st with
      | Except.error e => Except.error e
      | Except.ok st2 => walkSubdirs E err rel (filterVisible subdirs) st2
termination_by sizeOf t
decreasing_by
  all_goals simp_wf
  have h := sizeOf_filterVisible subdirs
  omega

/-- Descend into each subdirectory of the (already pruned) descent set in
order. -/
def walkSubdirs (E : List String) (err : ErrOracle) (rel : RelPath) :
    SubdirList → WalkState → Except String WalkState
| SubdirList.nil, st => Except.ok st
| SubdirList.cons d t rest, st =>
    match walkDir E err (rel ++ [d]) t st with
    | Except.error e => Except.error e
    | Except.ok st2 => walkSubdirs E err rel rest st2
termination_by l _ => sizeOf l
decreasing_by
  all_goals simp_wf
  all_goals omega

end

mutual

/-- `total_files = sum([len(files) for _, _, files in os.walk(src)])`: the
pre-pass counts the file entries of every directory of the subtree, with no
pruning and no filtering. -/
def countFiles : FSTree → Nat
| FSTree.mk files subdirs => files.length + countFilesL subdirs

/-- File count of a list of subdirectories. -/
def countFilesL : SubdirList → Nat
| SubdirList.nil => 0
| SubdirList.cons _ t rest => countFiles t + countFilesL rest

end

/-- The state at the start of a `copy_files_and_folders` run. -/
def initState (D : Dest) : WalkState :=
  { dest := D, copied := 0, progress := 0, log := [] }

/-- `copy_files_and_folders(src, dst, exclude_extensions)`: compute the
unfiltered `total_files` pre-count, then run the walk; the result carries
the final state and `total_files`. -/
def copy_files_and_folders (src : FSTree) (D : Dest) (E : List String)
    (err : ErrOracle) : Except String (WalkState × Nat) :=
  let total := countFiles src
  match walkDir E err [] src (initState D) with
  | Except.error e => Except.error e
  | Except.ok st => Except.ok (st, total)

/-- The destination-directory creation step of the loop body, as the total
function it amounts to: `os.makedirs(dest_dir)` guarded by
`not os.path.exists(dest_dir)` never raises. -/
def ensureDir (D : Dest) (rel : RelPath) : Dest :=
  if rel ∈ D.dirs then D
  else { D with dirs := (dirChain rel).foldl addDir D.dirs }

/-- A visited file entry: the relative path of its directory, its name and
its content. -/
abbrev Entry := RelPath × String × String

/-- The total state transformer of one loop-body iteration; `processFile`
always succeeds and acts as this function (`processFile_eq`). -/
def stepF (E : List String) (err : ErrOracle) (st : WalkState) (f : Entry) :
    WalkState :=
  match f with
  | (rel, name, content) =>
    if is_hidden name then
      { st with log := st.log ++ [(rel, name, Outcome.SkippedHidden)] }
    else if isExcluded name E then
      { st with log := st.log ++ [(rel, name, Outcome.SkippedExcluded)] }
    else
      let D := ensureDir st.dest rel
      match err rel name with
      | none =>
        { dest := { D with files := writeFile D.files (rel, name) content },
          copied := st.copied + 1, progress := st.progress + 1,
          log := st.log ++ [(rel, name, Outcome.Copied)] }
      | some CopyErr.permission =>
        { st with
          dest := D, progress := st.progress + 1,
          log := st.log ++ [(rel, name, Outcome.SkippedPermissionDenied)] }
      | some CopyErr.other =>
        { st with
          dest := D, progress := st.progress + 1,
          log := st.log ++ [(rel, name, Outcome.SkippedOtherError)] }

mutual

/-- The sequence of file entries the walk visits, in visit order: the files
of the current directory, then the files of the non-pruned subdirectories. -/
def visitSeq (rel : RelPath) (t : FSTree) : List Entry :=
  match t with
  | FSTree.mk files subdirs =>
      files.map (fun p => (rel, p.1, p.2)) ++ visitSeqL rel (filterVisible subdirs)
termination_by sizeOf t
decreasing_by
  all_goals simp_wf
  have h := sizeOf_filterVisible subdirs
  omega

/-- Visit sequence of an (already pruned) subdirectory list. -/
def visitSeqL (rel : RelPath) : SubdirList → List Entry
| SubdirList.nil => []
| SubdirList.cons d t rest => visitSeq (rel ++ [d]) t ++ visitSeqL rel rest
termination_by l => sizeOf l
decreasing_by
  all_goals simp_wf
  all_goals omega

end

mutual

/-- Every file entry of the subtree, with no pruning and no filtering: the
enumeration the `total_files` pre-pass performs. -/
def allFiles (rel : RelPath) : FSTree → List Entry
| FSTree.mk files subdirs =>
    files.map (fun p => (rel, p.1, p.2)) ++ allFilesL rel subdirs

/-- Every file entry of a subdirectory list. -/
def allFilesL (rel : RelPath) : SubdirList → List Entry
| SubdirList.nil => []
| SubdirList.cons d t rest => allFiles (rel ++ [d]) t ++ allFilesL rel rest

end

/-- A file name survives both skip tests: the copy is attempted (and the
destination directory is created) exactly for such files. -/
def attempted (E : List String) (name : String) : Bool :=
  !is_hidden name && !isExcluded name E

/-- The copy of a visited entry succeeds: both skip tests pass and the
oracle raises nothing. -/
def copies (E : List String) (err : ErrOracle) (f : Entry) : Bool :=
  attempted E f.2.1 && (err f.1 f.2.1).isNone

/-- The outcome the loop body records for a visited entry. -/
def outcomeOf (E : List String) (err : ErrOracle) (f : Entry) : Outcome :=
  if is_hidden f.2.1 then Outcome.SkippedHidden
  else if isExcluded f.2.1 E then Outcome.SkippedExcluded
  else
    match err f.1 f.2.1 with
    | none => Outcome.Copied
    | some CopyErr.permission => Outcome.SkippedPermissionDenied
    | some CopyErr.other => Outcome.SkippedOtherError

/-- The write a visited entry performs at a destination key, if any. -/
def writeOf (E : List String) (err : ErrOracle) (f : Entry)
    (k : RelPath × String) : Option String :=
  if copies E err f = true ∧ (f.1, f.2.1) = k then some f.2.2 else none

/-- The last write a visit sequence performs at a destination key. -/
def lastWrite (E : List String) (err : ErrOracle) :
    List Entry → RelPath × String → Option String
| [], _ => none
| f :: L, k => (lastWrite E err L k).or (writeOf E err f k)

mutual

/-- Some entry (file or subdirectory) of the subtree, at any depth, is
hidden.  The root directory itself is not an entry. -/
def hasHiddenEntry : FSTree → Bool
| FSTree.mk files subdirs =>
    files.any (fun p => is_hidden p.1) || hasHiddenEntryL subdirs

/-- Some entry of a subdirectory list is hidden. -/
def hasHiddenEntryL : SubdirList → Bool
| SubdirList.nil => false
| SubdirList.cons d t rest =>
    is_hidden d || hasHiddenEntry t || hasHiddenEntryL rest

end

/-- Modelled from the spec for comparison with the code: the extension of a
filename is the suffix after the final dot (the whole name when it has no
dot). -/
def specExtension (name : String) : String :=
  String.mk (((name.toList).reverse.takeWhile (fun c => c != '.')).reverse)

/-- The oracle of a run in which every copy succeeds. -/
def errNone : ErrOracle := fun _ _ => none

/-- What a run of `main` reports. -/
inductive RunResult where
| sourceNotFound
| completed (copied total : Nat)
| crashed (msg : String)
deriving DecidableEq

/-- `main`: if the source does not exist, print the error and return before
any copying; otherwise run `copy_files_and_folders`.  The function returns
the report together with the final destination state. -/
def main_run (src : Option FSTree) (D : Dest) (E : List String)
    (err : ErrOracle) : RunResult × Dest :=
  match src with
  | none => (RunResult.sourceNotFound, D)
  | some t =>
      match copy_files_and_folders t D E err with
      | Except.ok (st, total) => (RunResult.completed st.copied total, st.dest)
      | Except.error m => (RunResult.crashed m, D)

/-! ## The walk as a fold over the visit sequence -/

/-- One loop-body iteration never raises and acts as `stepF`. -/
theorem processFile_eq (E : List String) (err : ErrOracle) (rel : RelPath)
    (st : WalkState) (n c : String) :
    processFile E err rel st n c = Except.ok (stepF E err st (rel, n, c)) := by
  unfold processFile stepF ensureDir makedirs
  by_cases h1 : is_hidden n
  · simp [h1]
  · by_cases h2 : isExcluded n E
    · simp [h1, h2]
    · by_cases h3 : rel ∈ st.dest.dirs
      · simp only [h1, h2, h3, Bool.false_eq_true, if_false, if_true]
        cases err rel n with
        | none => rfl
        | some e => cases e <;> rfl
      · simp only [h1, h2, h3, Bool.false_eq_true, if_false, if_true]
        cases err rel n with
        | none => rfl
        | some e => cases e <;> rfl

/-- The inner file loop is the fold of `stepF` over this directory's files. -/
theorem processFiles_eq (E : List String) (err : ErrOracle) (rel : RelPath)
    (fs : List (String × String)) (st : WalkState) :
    processFiles E err rel fs st =
      Except.ok (List.foldl (stepF E err) st
        (fs.map (fun p => (rel, p.1, p.2)))) := by
  induction fs generalizing st with
  | nil => rfl
  | cons p rest ih =>
      rw [List.map_cons, List.foldl_cons]
      show processFiles E err rel (p :: rest) st = _
      rw [processFiles, processFile_eq]
      exact ih _

mutual

/-- The walk from a directory never raises and is the fold of `stepF` over
its visit sequence. -/
theorem walkDir_eq (E : List String) (err : ErrOracle) (rel : RelPath)
    (t : FSTree) (st : WalkState) :
    walkDir E err rel t st =
      Except.ok (List.foldl (stepF E err) st (visitSeq rel t)) := by
  match t with
  | FSTree.mk files subdirs =>
    rw [walkDir, visitSeq, processFiles_eq, List.foldl_append]
    exact walkSubdirs_eq E err rel (filterVisible subdirs) _
termination_by sizeOf t
decreasing_by
  all_goals simp_wf
  have h := sizeOf_filterVisible subdirs
  omega

/-- The walk over a pruned subdirectory list never raises and is the fold of
`stepF` over its visit sequence. -/
theorem walkSubdirs_eq (E : List String) (err : ErrOracle) (rel : RelPath)
    (l : SubdirList) (st : WalkState) :
    walkSubdirs E err rel l st =
      Except.ok (List.foldl (stepF E err) st (visitSeqL rel l)) := by
  match l with
  | SubdirList.nil =>
      rw [walkSubdirs, visitSeqL]
      rfl
  | SubdirList.cons d t rest =>
      rw [walkSubdirs, visitSeqL, List.foldl_append, walkDir_eq]
      exact walkSubdirs_eq E err rel rest _
termination_by sizeOf l
decreasing_by
  all_goals simp_wf
  all_goals omega

end

/-- `copy_files_and_folders` never raises: it returns the fold of the visit
sequence together with the unfiltered pre-count. -/
theorem copy_eq (t : FSTree) (D : Dest) (E : List String) (err : ErrOracle) :
    copy_files_and_folders t D E err =
      Except.ok (List.foldl (stepF E err) (initState D) (visitSeq [] t),
        countFiles t) := by
  unfold copy_files_and_folders
  rw [walkDir_eq]

/-! ## Effect of the fold on each state component -/

/-- One iteration appends exactly one log record, carrying `outcomeOf`. -/
theorem stepF_log (E : List String) (err : ErrOracle) (st : WalkState)
    (f : Entry) :
    (stepF E err st f).log = st.log ++ [(f.1, f.2.1, outcomeOf E err f)] := by
  obtain ⟨rel, n, c⟩ := f
  unfold stepF outcomeOf
  by_cases h1 : is_hidden n
  · simp [h1]
  · by_cases h2 : isExcluded n E
    · simp [h1, h2]
    · simp only [h1, h2, Bool.false_eq_true, if_false]
      cases err rel n with
      | none => rfl
      | some e => cases e <;> rfl

/-- One iteration increments `copied_files` exactly when the copy
succeeds. -/
theorem stepF_copied (E : List String) (err : ErrOracle) (st : WalkState)
    (f : Entry) :
    (stepF E err st f).copied =
      st.copied + (if copies E err f then 1 else 0) := by
  obtain ⟨rel, n, c⟩ := f
  unfold stepF copies attempted
  by_cases h1 : is_hidden n
  · simp [h1]
  · by_cases h2 : isExcluded n E
    · simp [h1, h2]
    · simp only [h1, h2, Bool.false_eq_true, if_false, Bool.not_false,
        Bool.and_self, Bool.true_and]
      cases herr : err rel n with
      | none => simp [herr, Option.isNone]
      | some e => cases e <;> simp [herr, Option.isNone]

/-- One iteration updates the progress bar exactly when the file is neither
hidden nor excluded. -/
theorem stepF_progress (E : List String) (err : ErrOracle) (st : WalkState)
    (f : Entry) :
    (stepF E err st f).progress =
      st.progress + (if attempted E f.2.1 then 1 else 0) := by
  obtain ⟨rel, n, c⟩ := f
  unfold stepF attempted
  by_cases h1 : is_hidden n
  · simp [h1]
  · by_cases h2 : isExcluded n E
    · simp [h1, h2]
    · simp only [h1, h2, Bool.false_eq_true, if_false, Bool.not_false,
        Bool.and_self]
      cases herr : err rel n with
      | none => simp
      | some e => cases e <;> simp

/-- The fold appends one log record per visited entry, in order. -/
theorem foldl_log (E : List String) (err : ErrOracle) (L : List Entry)
    (st : WalkState) :
    (List.foldl (stepF E err) st L).log =
      st.log ++ L.map (fun f => (f.1, f.2.1, outcomeOf E err f)) := by
  induction L generalizing st with
  | nil => simp
  | cons f rest ih =>
      rw [List.foldl_cons, ih, stepF_log, List.map_cons, List.append_assoc,
        List.singleton_append]

/-- The fold counts one copied file per successful copy. -/
theorem foldl_copied (E : List String) (err : ErrOracle) (L : List Entry)
    (st : WalkState) :
    (List.foldl (stepF E err) st L).copied =
      st.copied + L.countP (fun f => copies E err f) := by
  induction L generalizing st with
  | nil => simp
  | cons f rest ih =>
      rw [List.foldl_cons, ih, stepF_copied, List.countP_cons]
      by_cases h : copies E err f <;> simp [h] <;> omega

/-- The fold updates the progress bar once per non-hidden non-excluded
visited entry. -/
theorem foldl_progress (E : List String) (err : ErrOracle) (L : List Entry)
    (st : WalkState) :
    (List.foldl (stepF E err) st L).progress =
      st.progress + L.countP (fun f => attempted E f.2.1) := by
  induction L generalizing st with
  | nil => simp
  | cons f rest ih =>
      rw [List.foldl_cons, ih, stepF_progress, List.countP_cons]
      by_cases h : attempted E f.2.1 <;> simp [h] <;> omega

/-! ## Destination directories -/

/-- Membership after recording one directory. -/
theorem mem_addDir (ds : List RelPath) (c q : RelPath) :
    q ∈ addDir ds c ↔ q ∈ ds ∨ q = c := by
  unfold addDir
  by_cases h : c ∈ ds
  · simp only [h, if_true]
    constructor
    · exact Or.inl
    · rintro (hq | rfl)
      · exact hq
      · exact h
  · simp [h]

/-- Membership after recording a list of directories. -/
theorem mem_foldl_addDir (cs : List RelPath) (ds : List RelPath) (q : RelPath) :
    q ∈ cs.foldl addDir ds ↔ q ∈ ds ∨ q ∈ cs := by
  induction cs generalizing ds with
  | nil => simp
  | cons c rest ih =>
      rw [List.foldl_cons, ih, mem_addDir]
      simp only [List.mem_cons]
      tauto

/-- The directories `os.makedirs` creates for `rel` are exactly the
component-wise ancestors of `rel` (including `[]` and `rel` itself). -/
theorem mem_dirChain (rel q : RelPath) :
    q ∈ dirChain rel ↔ rel.take q.length = q := by
  unfold dirChain
  simp only [List.mem_map, List.mem_range]
  constructor
  · rintro ⟨i, hi, rfl⟩
    have hle : i ≤ rel.length := Nat.lt_succ_iff.mp hi
    rw [List.length_take, Nat.min_eq_left hle]
  · intro h
    refine ⟨q.length, ?_, h⟩
    have := congrArg List.length h
    rw [List.length_take] at this
    omega

/-- `ensureDir` only adds directories. -/
theorem ensureDir_dirs_mono (D : Dest) (rel q : RelPath)
    (h : q ∈ D.dirs) : q ∈ (ensureDir D rel).dirs := by
  unfold ensureDir
  split
  · exact h
  · exact (mem_foldl_addDir _ _ _).mpr (Or.inl h)

/-- What `ensureDir` adds, exactly. -/
theorem ensureDir_dirs_mem (D : Dest) (rel q : RelPath) :
    q ∈ (ensureDir D rel).dirs ↔
      q ∈ D.dirs ∨ (rel ∉ D.dirs ∧ q ∈ dirChain rel) := by
  unfold ensureDir
  split
  · rename_i h
    constructor
    · exact Or.inl
    · rintro (hq | ⟨hn, _⟩)
      · exact hq
      · exact absurd h hn
  · rename_i h
    rw [mem_foldl_addDir]
    tauto

/-- One iteration only adds destination directories. -/
theorem stepF_dirs_mono (E : List String) (err : ErrOracle) (st : WalkState)
    (f : Entry) (q : RelPath) (h : q ∈ st.dest.dirs) :
    q ∈ (stepF E err st f).dest.dirs := by
  obtain ⟨rel, n, c⟩ := f
  unfold stepF
  by_cases h1 : is_hidden n
  · simpa [h1] using h
  · by_cases h2 : isExcluded n E
    · simpa [h1, h2] using h
    · simp only [h1, h2, Bool.false_eq_true, if_false]
      cases err rel n with
      | none => exact ensureDir_dirs_mono _ _ _ h
      | some e => cases e <;> exact ensureDir_dirs_mono _ _ _ h

/-- The fold only adds destination directories. -/
theorem foldl_dirs_mono (E : List String) (err : ErrOracle) (L : List Entry)
    (st : WalkState) (q : RelPath) (h : q ∈ st.dest.dirs) :
    q ∈ (List.foldl (stepF E err) st L).dest.dirs := by
  induction L generalizing st with
  | nil => exact h
  | cons f rest ih => exact ih _ (stepF_dirs_mono _ _ _ _ _ h)

/-- Directories added by one iteration come from the ancestor chain of an
attempted file. -/
theorem stepF_dirs_sub (E : List String) (err : ErrOracle) (st : WalkState)
    (f : Entry) (q : RelPath) (h : q ∈ (stepF E err st f).dest.dirs) :
    q ∈ st.dest.dirs ∨ (attempted E f.2.1 = true ∧ q ∈ dirChain f.1) := by
  obtain ⟨rel, n, c⟩ := f
  unfold stepF at h
  by_cases h1 : is_hidden n
  · simp [h1] at h
    exact Or.inl h
  · by_cases h2 : isExcluded n E
    · simp [h1, h2] at h
      exact Or.inl h
    · have hat : attempted E n = true := by
        unfold attempted
        simp [h1, h2]
      simp only [h1, h2, Bool.false_eq_true, if_false] at h
      cases herr : err rel n with
      | none =>
          rw [herr] at h
          rcases (ensureDir_dirs_mem st.dest rel q).mp h with hq | ⟨_, hc⟩
          · exact Or.inl hq
          · exact Or.inr ⟨hat, hc⟩
      | some e =>
          cases e <;> rw [herr] at h <;>
            rcases (ensureDir_dirs_mem st.dest rel q).mp h with hq | ⟨_, hc⟩ <;>
            first
            | exact Or.inl hq
            | exact Or.inr ⟨hat, hc⟩

/-- Directories added by the fold come from ancestor chains of attempted
files. -/
theorem foldl_dirs_sub (E : List String) (err : ErrOracle) (L : List Entry)
    (st : WalkState) (q : RelPath)
    (h : q ∈ (List.foldl (stepF E err) st L).dest.dirs) :
    q ∈ st.dest.dirs ∨
      ∃ f ∈ L, attempted E f.2.1 = true ∧ q ∈ dirChain f.1 := by
  induction L generalizing st with
  | nil => exact Or.inl h
  | cons f rest ih =>
      rw [List.foldl_cons] at h
      rcases ih _ h with hq | ⟨g, hg, hgat, hgc⟩
      · rcases stepF_dirs_sub _ _ _ _ _ hq with hq2 | ⟨hat, hc⟩
        · exact Or.inl hq2
        · exact Or.inr ⟨f, List.mem_cons_self f rest, hat, hc⟩
      · exact Or.inr ⟨g, List.mem_cons_of_mem f hg, hgat, hgc⟩

/-- Every attempted visited file has its destination directory created by
the time the fold finishes. -/
theorem foldl_dirs_complete (E : List String) (err : ErrOracle)
    (L : List Entry) (st : WalkState) (f : Entry) (hf : f ∈ L)
    (hat : attempted E f.2.1 = true) :
    f.1 ∈ (List.foldl (stepF E err) st L).dest.dirs := by
  induction L generalizing st with
  | nil => cases hf
  | cons g rest ih =>
      rw [List.foldl_cons]
      rcases List.mem_cons.mp hf with rfl | hmem
      · apply foldl_dirs_mono
        obtain ⟨rel, n, c⟩ := f
        unfold stepF
        unfold attempted at hat
        simp only [Bool.and_eq_true, Bool.not_eq_true'] at hat
        obtain ⟨h1, h2⟩ := hat
        simp only [h1, h2, Bool.false_eq_true, if_false]
        have hchain : rel ∈ dirChain rel := by
          rw [mem_dirChain]
          exact List.take_length rel
        have hmem2 : ∀ D : Dest, rel ∈ (ensureDir D rel).dirs := by
          intro D
          rw [ensureDir_dirs_mem]
          by_cases hD : rel ∈ D.dirs
          · exact Or.inl hD
          · exact Or.inr ⟨hD, hchain⟩
        cases err rel n with
        | none => exact hmem2 _
        | some e => cases e <;> exact hmem2 _
      · exact ih _ hmem

/-! ## Destination files -/

/-- Looking up the key just written. -/
theorem lookupFile_writeFile_self (fs : List ((RelPath × String) × String))
    (k : RelPath × String) (c : String) :
    lookupFile (writeFile fs k c) k = some c := by
  induction fs with
  | nil => simp [writeFile, lookupFile]
  | cons e rest ih =>
      unfold writeFile
      by_cases h : e.1 = k
      · simp [h, lookupFile]
      · simp only [h, if_false]
        unfold lookupFile
        simp [h, ih]

/-- Writing one key leaves every other key unchanged. -/
theorem lookupFile_writeFile_other (fs : List ((RelPath × String) × String))
    (k k2 : RelPath × String) (c : String) (h : k2 ≠ k) :
    lookupFile (writeFile fs k c) k2 = lookupFile fs k2 := by
  have hne : k ≠ k2 := fun hk => h hk.symm
  induction fs with
  | nil =>
      show (if k = k2 then some c else lookupFile [] k2) = lookupFile [] k2
      rw [if_neg hne]
  | cons e rest ih =>
      show lookupFile (if e.1 = k then (k, c) :: rest else e :: writeFile rest k c) k2 = _
      by_cases he : e.1 = k
      · rw [if_pos he]
        show (if k = k2 then some c else lookupFile rest k2) = _
        rw [if_neg hne]
        show _ = (if e.1 = k2 then some e.2 else lookupFile rest k2)
        rw [if_neg (fun h2 : e.1 = k2 => hne (he.symm.trans h2))]
      · rw [if_neg he]
        show (if e.1 = k2 then some e.2 else lookupFile (writeFile rest k c) k2) =
          (if e.1 = k2 then some e.2 else lookupFile rest k2)
        rw [ih]

/-- Effect of one iteration on one destination-file key. -/
theorem stepF_files_lookup (E : List String) (err : ErrOracle)
    (st : WalkState) (f : Entry) (k : RelPath × String) :
    lookupFile (stepF E err st f).dest.files k =
      (writeOf E err f k).or (lookupFile st.dest.files k) := by
  obtain ⟨rel, n, c⟩ := f
  by_cases h1 : is_hidden n
  · simp [stepF, writeOf, copies, attempted, h1]
  · by_cases h2 : isExcluded n E
    · simp [stepF, writeOf, copies, attempted, h1, h2]
    · have hensfiles : (ensureDir st.dest rel).files = st.dest.files := by
        unfold ensureDir
        split <;> rfl
      cases herr : err rel n with
      | none =>
          by_cases hk : (rel, n) = k
          · subst hk
            simp [stepF, writeOf, copies, attempted, h1, h2, herr,
              lookupFile_writeFile_self]
          · simp only [stepF, writeOf, copies, attempted, h1, h2, herr,
              Bool.false_eq_true, if_false, Bool.not_false, Bool.and_self,
              Bool.true_and, Option.isNone_none, hk, and_false, if_false,
              Option.none_or]
            show lookupFile (writeFile (ensureDir st.dest rel).files (rel, n) c) k = _
            rw [lookupFile_writeFile_other _ _ _ _ (fun hkk => hk hkk.symm),
              hensfiles]
      | some e =>
          cases e <;>
            simp [stepF, writeOf, copies, attempted, h1, h2, herr, hensfiles]

/-- Effect of the fold on one destination-file key: the last write wins,
and an unwritten key keeps its previous content. -/
theorem foldl_files_lookup (E : List String) (err : ErrOracle)
    (L : List Entry) (st : WalkState) (k : RelPath × String) :
    lookupFile (List.foldl (stepF E err) st L).dest.files k =
      (lastWrite E err L k).or (lookupFile st.dest.files k) := by
  induction L generalizing st with
  | nil => simp [lastWrite]
  | cons f rest ih =>
      rw [List.foldl_cons, ih, stepF_files_lookup, lastWrite, Option.or_assoc]

/-- Every destination-file record either predates the fold or was written by
a successfully copied visited entry. -/
theorem mem_writeFile (fs : List ((RelPath × String) × String))
    (k : RelPath × String) (c : String) (e : (RelPath × String) × String)
    (h : e ∈ writeFile fs k c) : e = (k, c) ∨ e ∈ fs := by
  induction fs with
  | nil => simpa [writeFile] using h
  | cons e2 rest ih =>
      unfold writeFile at h
      by_cases he : e2.1 = k
      · simp only [he, if_true, List.mem_cons] at h
        rcases h with rfl | h
        · exact Or.inl rfl
        · exact Or.inr (List.mem_cons_of_mem _ h)
      · simp only [he, if_false, List.mem_cons] at h
        rcases h with rfl | h
        · exact Or.inr (List.mem_cons_self _ _)
        · rcases ih h with h2 | h2
          · exact Or.inl h2
          · exact Or.inr (List.mem_cons_of_mem _ h2)

/-- One iteration adds at most one file record, keyed by a copied entry. -/
theorem stepF_files_sub (E : List String) (err : ErrOracle) (st : WalkState)
    (f : Entry) (e : (RelPath × String) × String)
    (h : e ∈ (stepF E err st f).dest.files) :
    e ∈ st.dest.files ∨ (copies E err f = true ∧ e.1 = (f.1, f.2.1)) := by
  obtain ⟨rel, n, c⟩ := f
  unfold stepF at h
  by_cases h1 : is_hidden n
  · simp [h1] at h
    exact Or.inl h
  · by_cases h2 : isExcluded n E
    · simp [h1, h2] at h
      exact Or.inl h
    · have hensfiles : (ensureDir st.dest rel).files = st.dest.files := by
        unfold ensureDir
        split <;> rfl
      have hat : attempted E n = true := by
        unfold attempted
        simp [h1, h2]
      simp only [h1, h2, Bool.false_eq_true, if_false] at h
      cases herr : err rel n with
      | none =>
          rw [herr] at h
          simp only [] at h
          rcases mem_writeFile _ _ _ _ h with rfl | hmem
          · refine Or.inr ⟨?_, rfl⟩
            unfold copies
            simp [hat, herr]
          · rw [hensfiles] at hmem
            exact Or.inl hmem
      | some e2 =>
          cases e2 <;> rw [herr] at h <;> simp only [] at h <;>
            rw [hensfiles] at h <;> exact Or.inl h

/-- Fold version of `stepF_files_sub`. -/
theorem foldl_files_sub (E : List String) (err : ErrOracle) (L : List Entry)
    (st : WalkState) (e : (RelPath × String) × String)
    (h : e ∈ (List.foldl (stepF E err) st L).dest.files) :
    e ∈ st.dest.files ∨
      ∃ f ∈ L, copies E err f = true ∧ e.1 = (f.1, f.2.1) := by
  induction L generalizing st with
  | nil => exact Or.inl h
  | cons f rest ih =>
      rw [List.foldl_cons] at h
      rcases ih _ h with hmem | ⟨g, hg, hgc, hge⟩
      · rcases stepF_files_sub _ _ _ _ _ hmem with hmem2 | ⟨hc, hk⟩
        · exact Or.inl hmem2
        · exact Or.inr ⟨f, List.mem_cons_self f rest, hc, hk⟩
      · exact Or.inr ⟨g, List.mem_cons_of_mem f hg, hgc, hge⟩

/-! ## Closed directory sets and exact directory characterization -/

/-- A recorded directory set is ancestor-closed: with every directory it
contains all its ancestors (as `os.makedirs` guarantees). -/
def closedDirs (ds : List RelPath) : Prop :=
  ∀ r ∈ ds, ∀ i, r.take i ∈ ds

/-- Chains are closed under taking ancestors. -/
theorem dirChain_take (rel q : RelPath) (h : q ∈ dirChain rel) (i : Nat) :
    q.take i ∈ dirChain rel := by
  rw [mem_dirChain] at h ⊢
  have hq : q.length ≤ rel.length := by
    have := congrArg List.length h
    rw [List.length_take] at this
    omega
  have h2 : q.take i = rel.take (min i q.length) := by
    conv_lhs => rw [← h]
    rw [List.take_take]
  rw [h2, List.length_take]
  congr 1
  omega

/-- `ensureDir` preserves ancestor-closedness. -/
theorem ensureDir_closed (D : Dest) (rel : RelPath)
    (h : closedDirs D.dirs) : closedDirs (ensureDir D rel).dirs := by
  intro r hr i
  rcases (ensureDir_dirs_mem D rel r).mp hr with hm | ⟨hn, hc⟩
  · exact ensureDir_dirs_mono _ _ _ (h r hm i)
  · exact (ensureDir_dirs_mem D rel _).mpr (Or.inr ⟨hn, dirChain_take _ _ hc i⟩)

/-- One iteration preserves ancestor-closedness. -/
theorem stepF_closed (E : List String) (err : ErrOracle) (st : WalkState)
    (f : Entry) (h : closedDirs st.dest.dirs) :
    closedDirs (stepF E err st f).dest.dirs := by
  obtain ⟨rel, n, c⟩ := f
  unfold stepF
  by_cases h1 : is_hidden n
  · simpa [h1] using h
  · by_cases h2 : isExcluded n E
    · simpa [h1, h2] using h
    · simp only [h1, h2, Bool.false_eq_true, if_false]
      cases err rel n with
      | none => exact ensureDir_closed _ _ h
      | some e => cases e <;> exact ensureDir_closed _ _ h

/-- With an ancestor-closed starting directory set, a directory exists after
one iteration exactly when it existed before or lies on the ancestor chain
of an attempted file. -/
theorem stepF_dirs_char (E : List String) (err : ErrOracle) (st : WalkState)
    (f : Entry) (q : RelPath) (h : closedDirs st.dest.dirs) :
    (q ∈ (stepF E err st f).dest.dirs ↔
      q ∈ st.dest.dirs ∨ (attempted E f.2.1 = true ∧ q ∈ dirChain f.1)) := by
  constructor
  · exact stepF_dirs_sub E err st f q
  · rintro (hq | ⟨hat, hc⟩)
    · exact stepF_dirs_mono E err st f q hq
    · obtain ⟨rel, n, c⟩ := f
      unfold attempted at hat
      simp only [Bool.and_eq_true, Bool.not_eq_true'] at hat
      obtain ⟨h1, h2⟩ := hat
      unfold stepF
      simp only [h1, h2, Bool.false_eq_true, if_false]
      have hens : q ∈ (ensureDir st.dest rel).dirs := by
        rw [ensureDir_dirs_mem]
        by_cases hD : rel ∈ st.dest.dirs
        · rw [mem_dirChain] at hc
          exact Or.inl (hc ▸ h rel hD q.length)
        · exact Or.inr ⟨hD, hc⟩
      cases err rel n with
      | none => exact hens
      | some e => cases e <;> exact hens

/-- With an ancestor-closed starting directory set, a directory exists after
the fold exactly when it existed before or lies on the ancestor chain of an
attempted visited file. -/
theorem foldl_dirs_char (E : List String) (err : ErrOracle) (L : List Entry)
    (st : WalkState) (q : RelPath) (h : closedDirs st.dest.dirs) :
    (q ∈ (List.foldl (stepF E err) st L).dest.dirs ↔
      q ∈ st.dest.dirs ∨
        ∃ f ∈ L, attempted E f.2.1 = true ∧ q ∈ dirChain f.1) := by
  induction L generalizing st with
  | nil => simp
  | cons f rest ih =>
      rw [List.foldl_cons, ih _ (stepF_closed E err st f h),
        stepF_dirs_char E err st f q h]
      simp only [List.mem_cons]
      constructor
      · rintro ((hq | ⟨hat, hc⟩) | ⟨g, hg, hgat, hgc⟩)
        · exact Or.inl hq
        · exact Or.inr ⟨f, Or.inl rfl, hat, hc⟩
        · exact Or.inr ⟨g, Or.inr hg, hgat, hgc⟩
      · rintro (hq | ⟨g, rfl | hg, hgat, hgc⟩)
        · exact Or.inl (Or.inl hq)
        · exact Or.inl (Or.inr ⟨hgat, hgc⟩)
        · exact Or.inr ⟨g, hg, hgat, hgc⟩

/-- When every attempted visited file already has its destination directory,
the fold does not change the directory list at all (the `os.path.exists`
guard in front of `os.makedirs` always fires). -/
theorem foldl_dirs_noop (E : List String) (err : ErrOracle) (L : List Entry)
    (st : WalkState)
    (h : ∀ f ∈ L, attempted E f.2.1 = true → f.1 ∈ st.dest.dirs) :
    (List.foldl (stepF E err) st L).dest.dirs = st.dest.dirs := by
  induction L generalizing st with
  | nil => rfl
  | cons f rest ih =>
      rw [List.foldl_cons]
      have hstep : (stepF E err st f).dest.dirs = st.dest.dirs := by
        obtain ⟨rel, n, c⟩ := f
        unfold stepF
        by_cases h1 : is_hidden n
        · simp [h1]
        · by_cases h2 : isExcluded n E
          · simp [h1, h2]
          · have hat : attempted E n = true := by
              unfold attempted
              simp [h1, h2]
            have hrel : rel ∈ st.dest.dirs :=
              h (rel, n, c) (List.mem_cons_self _ _) hat
            have hens : ensureDir st.dest rel = st.dest := by
              unfold ensureDir
              rw [if_pos hrel]
            simp only [h1, h2, Bool.false_eq_true, if_false]
            cases err rel n with
            | none => simp [hens]
            | some e => cases e <;> simp [hens]
      rw [ih _ (fun g hg hgat => hstep ▸ h g (List.mem_cons_of_mem f hg) hgat),
        hstep]

/-! ## Last-write support -/

/-- A recorded last write comes from some visited entry. -/
theorem exists_of_lastWrite (E : List String) (err : ErrOracle)
    (L : List Entry) (k : RelPath × String) (c : String)
    (h : lastWrite E err L k = some c) :
    ∃ f ∈ L, writeOf E err f k = some c := by
  induction L with
  | nil => cases h
  | cons f rest ih =>
      rw [lastWrite] at h
      cases hrest : lastWrite E err rest k with
      | some c2 =>
          rw [hrest, Option.or_some] at h
          obtain ⟨g, hg, hgw⟩ := ih (hrest.trans (congrArg some (Option.some.inj h)))
          exact ⟨g, List.mem_cons_of_mem f hg, hgw⟩
      | none =>
          rw [hrest, Option.none_or] at h
          exact ⟨f, List.mem_cons_self f rest, h⟩

/-- No last write means no visited entry wrote the key. -/
theorem lastWrite_eq_none (E : List String) (err : ErrOracle)
    (L : List Entry) (k : RelPath × String)
    (h : lastWrite E err L k = none) :
    ∀ f ∈ L, writeOf E err f k = none := by
  induction L with
  | nil => intro f hf; cases hf
  | cons f rest ih =>
      rw [lastWrite] at h
      cases hrest : lastWrite E err rest k with
      | some c2 => rw [hrest, Option.or_some] at h; cases h
      | none =>
          rw [hrest, Option.none_or] at h
          intro g hg
          rcases List.mem_cons.mp hg with rfl | hmem
          · exact h
          · exact ih hrest g hmem

/-- If every write at a key carries the same content and some visited entry
writes it, the last write carries that content. -/
theorem lastWrite_of_mem (E : List String) (err : ErrOracle) (L : List Entry)
    (k : RelPath × String) (c : String) (f : Entry) (hf : f ∈ L)
    (hw : writeOf E err f k = some c)
    (huniq : ∀ g ∈ L, writeOf E err g k = none ∨ writeOf E err g k = some c) :
    lastWrite E err L k = some c := by
  cases hlw : lastWrite E err L k with
  | none => exact absurd hw ((lastWrite_eq_none E err L k hlw f hf).symm ▸ (by simp))
  | some c2 =>
      obtain ⟨g, hg, hgw⟩ := exists_of_lastWrite E err L k c2 hlw
      rcases huniq g hg with hn | hs
      · rw [hn] at hgw; cases hgw
      · rw [hs] at hgw
        rw [Option.some.inj hgw]

/-! ## No duplicate destination entries -/

/-- A key is absent exactly when lookup fails. -/
theorem lookupFile_eq_none_iff (fs : List ((RelPath × String) × String))
    (k : RelPath × String) :
    lookupFile fs k = none ↔ k ∉ fs.map Prod.fst := by
  induction fs with
  | nil => simp [lookupFile]
  | cons e rest ih =>
      unfold lookupFile
      by_cases he : e.1 = k
      · simp [he]
      · simp only [he, if_false, ih, List.map_cons, List.mem_cons]
        constructor
        · rintro hn (hk | hk)
          · exact he hk.symm
          · exact hn hk
        · intro hn hk
          exact hn (Or.inr hk)

/-- The keys after a write: unchanged when the key was present, the key
appended otherwise. -/
theorem writeFile_keys (fs : List ((RelPath × String) × String))
    (k : RelPath × String) (c : String) :
    (writeFile fs k c).map Prod.fst =
      if k ∈ fs.map Prod.fst then fs.map Prod.fst
      else fs.map Prod.fst ++ [k] := by
  induction fs with
  | nil => simp [writeFile]
  | cons e rest ih =>
      show (if e.1 = k then (k, c) :: rest else e :: writeFile rest k c).map Prod.fst = _
      by_cases he : e.1 = k
      · simp [he]
      · simp only [he, if_false, List.map_cons, ih, List.mem_cons]
        by_cases hk : k ∈ rest.map Prod.fst
        · simp [hk]
        · have hcond : ¬(k = e.1 ∨ k ∈ rest.map Prod.fst) := by
            rintro (hk2 | hk2)
            · exact he hk2.symm
            · exact hk hk2
          rw [if_neg hk, if_neg hcond, List.cons_append]

/-- Writes preserve key uniqueness. -/
theorem writeFile_nodup (fs : List ((RelPath × String) × String))
    (k : RelPath × String) (c : String) (h : (fs.map Prod.fst).Nodup) :
    ((writeFile fs k c).map Prod.fst).Nodup := by
  rw [writeFile_keys]
  by_cases hk : k ∈ fs.map Prod.fst
  · simpa [hk] using h
  · rw [if_neg hk, List.nodup_append]
    refine ⟨h, List.nodup_singleton k, ?_⟩
    intro a ha hak
    rw [List.mem_singleton] at hak
    subst hak
    exact hk ha

/-- One iteration preserves key uniqueness of the destination files. -/
theorem stepF_nodup (E : List String) (err : ErrOracle) (st : WalkState)
    (f : Entry) (h : (st.dest.files.map Prod.fst).Nodup) :
    ((stepF E err st f).dest.files.map Prod.fst).Nodup := by
  obtain ⟨rel, n, c⟩ := f
  have hensfiles : (ensureDir st.dest rel).files = st.dest.files := by
    unfold ensureDir
    split <;> rfl
  unfold stepF
  by_cases h1 : is_hidden n
  · simpa [h1] using h
  · by_cases h2 : isExcluded n E
    · simpa [h1, h2] using h
    · simp only [h1, h2, Bool.false_eq_true, if_false]
      cases err rel n with
      | none =>
          simp only []
          rw [hensfiles] at *
          exact writeFile_nodup _ _ _ h
      | some e => cases e <;> simpa [hensfiles] using h

/-- The fold preserves key uniqueness of the destination files. -/
theorem foldl_nodup (E : List String) (err : ErrOracle) (L : List Entry)
    (st : WalkState) (h : (st.dest.files.map Prod.fst).Nodup) :
    ((List.foldl (stepF E err) st L).dest.files.map Prod.fst).Nodup := by
  induction L generalizing st with
  | nil => exact h
  | cons f rest ih => exact ih _ (stepF_nodup E err st f h)

/-! ## Structure of the visit sequence -/

/-- The predicate deciding that a visited path below `rel` has no hidden
component after `rel`. -/
def visBelow (rel : RelPath) (f : Entry) : Bool :=
  (f.1.drop rel.length).all (fun comp => !is_hidden comp)

mutual

/-- Every enumerated file lies below the directory it was enumerated
from. -/
theorem allFiles_shape (rel : RelPath) (t : FSTree) :
    ∀ f ∈ allFiles rel t, ∃ suf, f.1 = rel ++ suf := by
  match t with
  | FSTree.mk files subdirs =>
    intro f hf
    rw [allFiles] at hf
    rcases List.mem_append.mp hf with hm | hm
    · obtain ⟨p, _, rfl⟩ := List.mem_map.mp hm
      exact ⟨[], (List.append_nil rel).symm⟩
    · exact allFilesL_shape rel subdirs f hm
termination_by sizeOf t

/-- Every enumerated file of a subdirectory list lies below `rel`. -/
theorem allFilesL_shape (rel : RelPath) (l : SubdirList) :
    ∀ f ∈ allFilesL rel l, ∃ suf, f.1 = rel ++ suf := by
  match l with
  | SubdirList.nil => intro f hf; rw [allFilesL] at hf; cases hf
  | SubdirList.cons d t rest =>
      intro f hf
      rw [allFilesL] at hf
      rcases List.mem_append.mp hf with hm | hm
      · obtain ⟨suf, hsuf⟩ := allFiles_shape (rel ++ [d]) t f hm
        exact ⟨[d] ++ suf, by rw [hsuf, List.append_assoc]⟩
      · exact allFilesL_shape rel rest f hm
termination_by sizeOf l

end

mutual

/-- The visit sequence is the unfiltered enumeration restricted to the
files all of whose path components below the walk root are visible: the
effect of pruning hidden subdirectories from the descent set. -/
theorem visitSeq_eq_filter (rel : RelPath) (t : FSTree) :
    visitSeq rel t = (allFiles rel t).filter (visBelow rel) := by
  match t with
  | FSTree.mk files subdirs =>
    rw [visitSeq, allFiles, List.filter_append]
    have h1 : (files.map (fun p => (rel, p.1, p.2))).filter (visBelow rel) =
        files.map (fun p => (rel, p.1, p.2)) := by
      rw [List.filter_eq_self]
      intro a ha
      obtain ⟨p, _, rfl⟩ := List.mem_map.mp ha
      simp [visBelow]
    rw [h1, visitSeqL_eq_filter rel subdirs]
termination_by sizeOf t
decreasing_by
  all_goals simp_wf
  all_goals omega

/-- Subdirectory-list version of `visitSeq_eq_filter`: pruning then
visiting equals enumerating then filtering. -/
theorem visitSeqL_eq_filter (rel : RelPath) (l : SubdirList) :
    visitSeqL rel (filterVisible l) = (allFilesL rel l).filter (visBelow rel) := by
  match l with
  | SubdirList.nil => rw [filterVisible, visitSeqL, allFilesL, List.filter_nil]
  | SubdirList.cons d t rest =>
      rw [filterVisible, allFilesL, List.filter_append]
      by_cases hd : is_hidden d
      · have h0 : (allFiles (rel ++ [d]) t).filter (visBelow rel) = [] := by
          rw [List.filter_eq_nil]
          intro f hf
          obtain ⟨suf, hsuf⟩ := allFiles_shape (rel ++ [d]) t f hf
          rw [List.append_assoc] at hsuf
          simp only [visBelow, hsuf, List.drop_left, List.singleton_append,
            List.all_cons, Bool.not_eq_true, Bool.and_eq_true]
          rintro ⟨hdf, -⟩
          rw [hd] at hdf
          cases hdf
        rw [if_pos hd, h0, List.nil_append]
        exact visitSeqL_eq_filter rel rest
      · have h1 : (allFiles (rel ++ [d]) t).filter (visBelow rel) =
            (allFiles (rel ++ [d]) t).filter (visBelow (rel ++ [d])) := by
          apply List.filter_congr
          intro f hf
          obtain ⟨suf, hsuf⟩ := allFiles_shape (rel ++ [d]) t f hf
          have hsuf2 : f.1 = rel ++ ([d] ++ suf) := by
            rw [hsuf, List.append_assoc]
          have hlen : (rel ++ [d]).length = rel.length + 1 := by
            simp
          have hdrop : (rel ++ d :: suf).drop (rel.length + 1) = suf := by
            rw [List.append_cons, ← hlen, List.drop_left]
          have hd2 : is_hidden d = false := Bool.eq_false_iff.mpr hd
          simp only [visBelow, hsuf2, List.drop_left, hlen,
            List.singleton_append, List.all_cons, hd2, Bool.not_false,
            Bool.true_and, hdrop]
        rw [if_neg hd, visitSeqL, h1, ← visitSeq_eq_filter (rel ++ [d]) t,
          visitSeqL_eq_filter rel rest]
termination_by sizeOf l
decreasing_by
  all_goals simp_wf
  all_goals omega

end

/-- Every visited entry has only visible path components below the walk
root. -/
theorem visitSeq_components (rel : RelPath) (t : FSTree) (f : Entry)
    (hf : f ∈ visitSeq rel t) : visBelow rel f = true := by
  rw [visitSeq_eq_filter] at hf
  exact (List.mem_filter.mp hf).2

/-- Every visited entry is an enumerated entry. -/
theorem visitSeq_sub_allFiles (rel : RelPath) (t : FSTree) (f : Entry)
    (hf : f ∈ visitSeq rel t) : f ∈ allFiles rel t := by
  rw [visitSeq_eq_filter] at hf
  exact (List.mem_filter.mp hf).1

mutual

/-- The pre-count equals the length of the unfiltered enumeration. -/
theorem countFiles_eq_length (rel : RelPath) (t : FSTree) :
    countFiles t = (allFiles rel t).length := by
  match t with
  | FSTree.mk files subdirs =>
    rw [countFiles, allFiles, List.length_append, List.length_map,
      countFilesL_eq_length rel subdirs]
termination_by sizeOf t

/-- Subdirectory-list version of `countFiles_eq_length`. -/
theorem countFilesL_eq_length (rel : RelPath) (l : SubdirList) :
    countFilesL l = (allFilesL rel l).length := by
  match l with
  | SubdirList.nil => rw [countFilesL, allFilesL]; rfl
  | SubdirList.cons d t rest =>
      rw [countFilesL, allFilesL, List.length_append,
        countFiles_eq_length (rel ++ [d]) t, countFilesL_eq_length rel rest]
termination_by sizeOf l

end

/-! ## Concrete trees and runs used by counterexamples and witnesses -/

/-- A tree holding a single hidden file. -/
def hiddenFileTree : FSTree := FSTree.mk [(".a", "x")] SubdirList.nil

/-- The state after running on `hiddenFileTree` with no exclusions. -/
def stHidden : WalkState :=
  { dest := Dest.empty, copied := 0, progress := 0,
    log := [([], ".a", Outcome.SkippedHidden)] }

/-- A tree holding a single file whose name ends in a two-component
suffix. -/
def dottedExtTree : FSTree := FSTree.mk [("a.b.txt", "x")] SubdirList.nil

/-- The state after running on `dottedExtTree` excluding `b.txt`. -/
def stDotted : WalkState :=
  { dest := Dest.empty, copied := 0, progress := 0,
    log := [([], "a.b.txt", Outcome.SkippedExcluded)] }

/-- A tree holding a copyable file next to an empty hidden subdirectory. -/
def emptyHiddenDirTree : FSTree :=
  FSTree.mk [("a.txt", "x")]
    (SubdirList.cons ".e" (FSTree.mk [] SubdirList.nil) SubdirList.nil)

/-- The state after running on `emptyHiddenDirTree` with no exclusions. -/
def stEmptyHidden : WalkState :=
  { dest := { dirs := [[]], files := [(([], "a.txt"), "x")] },
    copied := 1, progress := 1, log := [([], "a.txt", Outcome.Copied)] }

/-- A tree holding one hidden file and one copyable file. -/
def mixedTree : FSTree :=
  FSTree.mk [(".a", "x"), ("b.txt", "y")] SubdirList.nil

/-- The state after running on `mixedTree` with no exclusions. -/
def stMixed : WalkState :=
  { dest := { dirs := [[]], files := [(([], "b.txt"), "y")] },
    copied := 1, progress := 1,
    log := [([], ".a", Outcome.SkippedHidden), ([], "b.txt", Outcome.Copied)] }

/-- A tree holding one copyable file and a hidden subdirectory containing a
non-hidden file. -/
def prunedTree : FSTree :=
  FSTree.mk [("keep.txt", "k")]
    (SubdirList.cons ".git" (FSTree.mk [("config", "c")] SubdirList.nil)
      SubdirList.nil)

/-- The state after running on `prunedTree` with no exclusions. -/
def stPruned : WalkState :=
  { dest := { dirs := [[]], files := [(([], "keep.txt"), "k")] },
    copied := 1, progress := 1, log := [([], "keep.txt", Outcome.Copied)] }

/-- The state after running on `prunedTree` when every copy raises
PermissionError. -/
def stPrunedPerm : WalkState :=
  { dest := { dirs := [[]], files := [] },
    copied := 0, progress := 1,
    log := [([], "keep.txt", Outcome.SkippedPermissionDenied)] }

/-- A tree holding a single file that is both hidden and matches the
exclusion `tmp`. -/
def hiddenExclTree : FSTree := FSTree.mk [(".tmp", "h")] SubdirList.nil

/-- The state after running on `hiddenExclTree` excluding `tmp`. -/
def stHiddenExcl : WalkState :=
  { dest := Dest.empty, copied := 0, progress := 0,
    log := [([], ".tmp", Outcome.SkippedHidden)] }

/-- A tree with a subdirectory, for the idempotence witness. -/
def nestedTree : FSTree :=
  FSTree.mk [("a.txt", "1")]
    (SubdirList.cons "sub" (FSTree.mk [("b.txt", "2")] SubdirList.nil)
      SubdirList.nil)

/-- An oracle whose every copy raises PermissionError. -/
def errPerm : ErrOracle := fun _ _ => some CopyErr.permission

/-- Visit sequence of `hiddenFileTree`. -/
theorem visit_hiddenFileTree :
    visitSeq [] hiddenFileTree = [([], ".a", "x")] := by
  simp [visitSeq, visitSeqL, filterVisible, hiddenFileTree]

/-- Run on `hiddenFileTree`: one visited entry, no progress update. -/
theorem run_hiddenFileTree :
    copy_files_and_folders hiddenFileTree Dest.empty [] errNone =
      Except.ok (stHidden, 1) := by
  rw [copy_eq, visit_hiddenFileTree]
  simp only [Except.ok.injEq, Prod.mk.injEq]
  exact ⟨by decide, by decide⟩

/-- Visit sequence of `dottedExtTree`. -/
theorem visit_dottedExtTree :
    visitSeq [] dottedExtTree = [([], "a.b.txt", "x")] := by
  simp [visitSeq, visitSeqL, filterVisible, dottedExtTree]

/-- The exclusion test of the code matches `a.b.txt` against the exclusion
entry `b.txt` (glob `*.b.txt`). -/
theorem excl_dotted : isExcluded "a.b.txt" ["b.txt"] = true := by
  simp [isExcluded, fnmatch, globMatch, parseBracket, scanClass, inClass]

/-- Run on `dottedExtTree` excluding `b.txt`: the file is skipped. -/
theorem run_dottedExtTree :
    copy_files_and_folders dottedExtTree Dest.empty ["b.txt"] errNone =
      Except.ok (stDotted, 1) := by
  rw [copy_eq, visit_dottedExtTree]
  have hh : is_hidden "a.b.txt" = false := by decide
  simp only [List.foldl_cons, List.foldl_nil, stepF, hh, excl_dotted,
    Bool.false_eq_true, if_false, if_true]
  rfl

/-- Visit sequence of `emptyHiddenDirTree`: the hidden subdirectory is
pruned. -/
theorem visit_emptyHiddenDirTree :
    visitSeq [] emptyHiddenDirTree = [([], "a.txt", "x")] := by
  have he : is_hidden ".e" = true := by decide
  simp [visitSeq, visitSeqL, filterVisible, emptyHiddenDirTree, he]

/-- Run on `emptyHiddenDirTree`: the file copies, the counters agree. -/
theorem run_emptyHiddenDirTree :
    copy_files_and_folders emptyHiddenDirTree Dest.empty [] errNone =
      Except.ok (stEmptyHidden, 1) := by
  rw [copy_eq, visit_emptyHiddenDirTree]
  simp only [Except.ok.injEq, Prod.mk.injEq]
  exact ⟨by decide, by decide⟩

/-- Visit sequence of `mixedTree`. -/
theorem visit_mixedTree :
    visitSeq [] mixedTree = [([], ".a", "x"), ([], "b.txt", "y")] := by
  simp [visitSeq, visitSeqL, filterVisible, mixedTree]

/-- Run on `mixedTree`: the hidden file is skipped, the other copies. -/
theorem run_mixedTree :
    copy_files_and_folders mixedTree Dest.empty [] errNone =
      Except.ok (stMixed, 2) := by
  rw [copy_eq, visit_mixedTree]
  simp only [Except.ok.injEq, Prod.mk.injEq]
  exact ⟨by decide, by decide⟩

/-- Visit sequence of `prunedTree`: the `.git` subtree is pruned. -/
theorem visit_prunedTree :
    visitSeq [] prunedTree = [([], "keep.txt", "k")] := by
  have hg : is_hidden ".git" = true := by decide
  simp [visitSeq, visitSeqL, filterVisible, prunedTree, hg]

/-- Run on `prunedTree`: only the visible file is visited and copied. -/
theorem run_prunedTree :
    copy_files_and_folders prunedTree Dest.empty [] errNone =
      Except.ok (stPruned, 2) := by
  rw [copy_eq, visit_prunedTree]
  simp only [Except.ok.injEq, Prod.mk.injEq]
  exact ⟨by decide, by decide⟩

/-- Run on `prunedTree` with every copy failing: still visited, directory
created, nothing copied. -/
theorem run_prunedTreePerm :
    copy_files_and_folders prunedTree Dest.empty [] errPerm =
      Except.ok (stPrunedPerm, 2) := by
  rw [copy_eq, visit_prunedTree]
  simp only [Except.ok.injEq, Prod.mk.injEq]
  exact ⟨by decide, by decide⟩

/-- Visit sequence of `hiddenExclTree`. -/
theorem visit_hiddenExclTree :
    visitSeq [] hiddenExclTree = [([], ".tmp", "h")] := by
  simp [visitSeq, visitSeqL, filterVisible, hiddenExclTree]

/-- Run on `hiddenExclTree` excluding `tmp`: hidden wins. -/
theorem run_hiddenExclTree :
    copy_files_and_folders hiddenExclTree Dest.empty ["tmp"] errNone =
      Except.ok (stHiddenExcl, 1) := by
  rw [copy_eq, visit_hiddenExclTree]
  have hh : is_hidden ".tmp" = true := by decide
  simp only [List.foldl_cons, List.foldl_nil, stepF, hh, if_true]
  rfl

/-- The exclusion test matches `.tmp` against the exclusion entry `tmp`. -/
theorem excl_hiddenExcl : isExcluded ".tmp" ["tmp"] = true := by
  simp [isExcluded, fnmatch, globMatch, parseBracket, scanClass, inClass]

/-! ## Final-state helpers -/

/-- Reading off the components of a successful run. -/
theorem run_inj (t : FSTree) (D : Dest) (E : List String) (err : ErrOracle)
    (st : WalkState) (total : Nat)
    (h : copy_files_and_folders t D E err = Except.ok (st, total)) :
    st = List.foldl (stepF E err) (initState D) (visitSeq [] t) ∧
    total = countFiles t := by
  rw [copy_eq] at h
  obtain ⟨h1, h2⟩ := Prod.mk.inj (Except.ok.inj h)
  exact ⟨h1.symm, h2.symm⟩

/-- The final log records every visited entry, in order, with its
outcome. -/
theorem final_log (t : FSTree) (D : Dest) (E : List String) (err : ErrOracle)
    (st : WalkState) (total : Nat)
    (h : copy_files_and_folders t D E err = Except.ok (st, total)) :
    st.log = (visitSeq [] t).map (fun f => (f.1, f.2.1, outcomeOf E err f)) := by
  obtain ⟨hst, -⟩ := run_inj t D E err st total h
  rw [hst, foldl_log]
  rfl

/-- The final copied-files counter. -/
theorem final_copied (t : FSTree) (D : Dest) (E : List String)
    (err : ErrOracle) (st : WalkState) (total : Nat)
    (h : copy_files_and_folders t D E err = Except.ok (st, total)) :
    st.copied = (visitSeq [] t).countP (fun f => copies E err f) := by
  obtain ⟨hst, -⟩ := run_inj t D E err st total h
  rw [hst, foldl_copied]
  simp [initState]

/-- The final progress count. -/
theorem final_progress (t : FSTree) (D : Dest) (E : List String)
    (err : ErrOracle) (st : WalkState) (total : Nat)
    (h : copy_files_and_folders t D E err = Except.ok (st, total)) :
    st.progress = (visitSeq [] t).countP (fun f => attempted E f.2.1) := by
  obtain ⟨hst, -⟩ := run_inj t D E err st total h
  rw [hst, foldl_progress]
  simp [initState]

/-- The reported total. -/
theorem final_total (t : FSTree) (D : Dest) (E : List String)
    (err : ErrOracle) (st : WalkState) (total : Nat)
    (h : copy_files_and_folders t D E err = Except.ok (st, total)) :
    total = countFiles t := (run_inj t D E err st total h).2

/-- The final content of one destination key. -/
theorem final_lookup (t : FSTree) (D : Dest) (E : List String)
    (err : ErrOracle) (st : WalkState) (total : Nat) (k : RelPath × String)
    (h : copy_files_and_folders t D E err = Except.ok (st, total)) :
    lookupFile st.dest.files k =
      (lastWrite E err (visitSeq [] t) k).or (lookupFile D.files k) := by
  obtain ⟨hst, -⟩ := run_inj t D E err st total h
  rw [hst, foldl_files_lookup]
  rfl

/-- Every final destination-file record predates the run or was written by
a copied visited entry. -/
theorem final_files_sub (t : FSTree) (D : Dest) (E : List String)
    (err : ErrOracle) (st : WalkState) (total : Nat)
    (e : (RelPath × String) × String)
    (h : copy_files_and_folders t D E err = Except.ok (st, total))
    (he : e ∈ st.dest.files) :
    e ∈ D.files ∨
      ∃ f ∈ visitSeq [] t, copies E err f = true ∧ e.1 = (f.1, f.2.1) := by
  obtain ⟨hst, -⟩ := run_inj t D E err st total h
  rw [hst] at he
  exact foldl_files_sub E err (visitSeq [] t) (initState D) e he

/-- Starting from a nonexistent destination, the directories that exist
after the run are exactly the ancestors of attempted visited files. -/
theorem final_dirs (t : FSTree) (E : List String) (err : ErrOracle)
    (st : WalkState) (total : Nat) (q : RelPath)
    (h : copy_files_and_folders t Dest.empty E err = Except.ok (st, total)) :
    (q ∈ st.dest.dirs ↔
      ∃ f ∈ visitSeq [] t, attempted E f.2.1 = true ∧ q ∈ dirChain f.1) := by
  obtain ⟨hst, -⟩ := run_inj t Dest.empty E err st total h
  rw [hst, foldl_dirs_char E err (visitSeq [] t) (initState Dest.empty) q
    (fun r hr => absurd hr (List.not_mem_nil r))]
  constructor
  · rintro (hq | hq)
    · exact absurd hq (List.not_mem_nil q)
    · exact hq
  · exact Or.inr

/-! ## Outcome characterizations -/

/-- A hidden file always gets outcome SkippedHidden. -/
theorem outcomeOf_of_hidden (E : List String) (err : ErrOracle) (f : Entry)
    (h : is_hidden f.2.1 = true) :
    outcomeOf E err f = Outcome.SkippedHidden := by
  unfold outcomeOf
  rw [if_pos h]

/-- A non-hidden file gets outcome SkippedExcluded exactly when the
exclusion test matches. -/
theorem outcomeOf_excluded_iff (E : List String) (err : ErrOracle) (f : Entry)
    (hh : is_hidden f.2.1 = false) :
    (outcomeOf E err f = Outcome.SkippedExcluded ↔
      isExcluded f.2.1 E = true) := by
  unfold outcomeOf
  rw [hh]
  simp only [Bool.false_eq_true, if_false]
  by_cases hx : isExcluded f.2.1 E
  · simp [hx]
  · simp only [hx, Bool.false_eq_true, if_false]
    constructor
    · intro ho
      cases herr : err f.1 f.2.1 with
      | none => rw [herr] at ho; cases ho
      | some e => cases e <;> rw [herr] at ho <;> cases ho
    · exact fun hx2 => hx2.elim

/-- A file gets outcome Copied exactly when its copy succeeds. -/
theorem outcomeOf_copied_iff (E : List String) (err : ErrOracle) (f : Entry) :
    (outcomeOf E err f = Outcome.Copied ↔ copies E err f = true) := by
  unfold outcomeOf copies attempted
  by_cases h1 : is_hidden f.2.1
  · simp [h1]
  · by_cases h2 : isExcluded f.2.1 E
    · simp [h1, h2]
    · simp only [h1, h2, Bool.false_eq_true, if_false, Bool.not_false,
        Bool.and_self, Bool.true_and]
      cases herr : err f.1 f.2.1 with
      | none => simp
      | some e => cases e <;> simp

/-- Unpacking a performed write. -/
theorem writeOf_eq_some (E : List String) (err : ErrOracle) (f : Entry)
    (k : RelPath × String) (c : String) (h : writeOf E err f k = some c) :
    copies E err f = true ∧ (f.1, f.2.1) = k ∧ f.2.2 = c := by
  unfold writeOf at h
  by_cases hc : copies E err f = true ∧ (f.1, f.2.1) = k
  · rw [if_pos hc] at h
    exact ⟨hc.1, hc.2, Option.some.inj h⟩
  · rw [if_neg hc] at h
    cases h

/-- An attempted file passed both skip tests. -/
theorem attempted_unpack (E : List String) (n : String)
    (h : attempted E n = true) :
    is_hidden n = false ∧ isExcluded n E = false := by
  unfold attempted at h
  simp only [Bool.and_eq_true, Bool.not_eq_true'] at h
  exact h

/-- A key whose file name fails a skip test is never written. -/
theorem lastWrite_none_of_not_attempted (E : List String) (err : ErrOracle)
    (L : List Entry) (rel : RelPath) (n : String)
    (hna : attempted E n = false) :
    lastWrite E err L (rel, n) = none := by
  cases hlw : lastWrite E err L (rel, n) with
  | none => rfl
  | some c =>
      obtain ⟨g, _, hgw⟩ := exists_of_lastWrite E err L (rel, n) c hlw
      obtain ⟨hgc, hgk, -⟩ := writeOf_eq_some E err g (rel, n) c hgw
      unfold copies at hgc
      rw [Bool.and_eq_true] at hgc
      have hn : g.2.1 = n := congrArg Prod.snd hgk
      rw [hn] at hgc
      rw [hgc.1] at hna
      cases hna

/-! ## Claim theorems -/

/-- The log outcome is neither skip-by-policy outcome exactly when the file
passed both skip tests. -/
theorem progress_pred_eq_attempted (E : List String) (err : ErrOracle)
    (f : Entry) :
    ((outcomeOf E err f != Outcome.SkippedHidden) &&
      (outcomeOf E err f != Outcome.SkippedExcluded)) = attempted E f.2.1 := by
  unfold outcomeOf attempted
  by_cases h1 : is_hidden f.2.1
  · simp [h1]
  · by_cases h2 : isExcluded f.2.1 E
    · simp [h1, h2]
    · simp only [h1, h2, Bool.false_eq_true, if_false, Bool.not_false,
        Bool.and_self]
      cases herr : err f.1 f.2.1 with
      | none => simp
      | some e => cases e <;> simp

/-- C1 counterexample: on a tree whose only file entry is the hidden file
`.a`, the walk visits one file entry and records one log record, but the
progress counter is never advanced: the hidden-file branch `continue`s
before `progress_bar.update(1)`, so the number of progress advances (0) is
not the number of visited file entries (1). -/
theorem C1_counterexample :
    copy_files_and_folders hiddenFileTree Dest.empty [] errNone =
      Except.ok (stHidden, 1) ∧
    stHidden.log.length = 1 ∧ stHidden.progress = 0 :=
  ⟨run_hiddenFileTree, rfl, rfl⟩

/-- C1 (amended): every visited file entry produces exactly one log record,
but the progress counter is advanced exactly once per visited file that is
neither hidden nor excluded (outcomes Copied, SkippedPermissionDenied,
SkippedOtherError); files with outcome SkippedHidden or SkippedExcluded do
not advance it.  So after the walk the number of advances equals the number
of visited entries minus the hidden and excluded ones. -/
theorem progress_advances_once_per_attempted_file (t : FSTree) (D : Dest)
    (E : List String) (err : ErrOracle) (st : WalkState) (total : Nat)
    (h : copy_files_and_folders t D E err = Except.ok (st, total)) :
    st.log.length = (visitSeq [] t).length ∧
    st.progress = (visitSeq [] t).countP (fun f => attempted E f.2.1) ∧
    st.progress = (st.log.filter (fun e => (e.2.2 != Outcome.SkippedHidden) &&
      (e.2.2 != Outcome.SkippedExcluded))).length := by
  refine ⟨?_, final_progress t D E err st total h, ?_⟩
  · rw [final_log t D E err st total h, List.length_map]
  · rw [final_log t D E err st total h,
      final_progress t D E err st total h, List.filter_map, List.length_map,
      ← List.countP_eq_length_filter]
    apply List.countP_congr
    intro f _
    constructor
    · intro ha
      show ((outcomeOf E err f != Outcome.SkippedHidden) &&
        (outcomeOf E err f != Outcome.SkippedExcluded)) = true
      rw [progress_pred_eq_attempted E err f]
      exact ha
    · intro hb
      have hb2 : ((outcomeOf E err f != Outcome.SkippedHidden) &&
        (outcomeOf E err f != Outcome.SkippedExcluded)) = true := hb
      rw [progress_pred_eq_attempted E err f] at hb2
      exact hb2

/-- C1 witness: the amended statement evaluated on `mixedTree` (one hidden
file, one copied file): two log records, one progress advance. -/
theorem progress_advances_once_per_attempted_file_witness :
    stMixed.log.length = (visitSeq [] mixedTree).length ∧
    stMixed.progress = (visitSeq [] mixedTree).countP (fun f => attempted [] f.2.1) ∧
    stMixed.progress = (stMixed.log.filter
      (fun e => (e.2.2 != Outcome.SkippedHidden) &&
        (e.2.2 != Outcome.SkippedExcluded))).length :=
  progress_advances_once_per_attempted_file mixedTree Dest.empty [] errNone
    stMixed 2 run_mixedTree

/-- C5: when the source does not exist, `main` prints the error and returns
before reading exclusions or calling `copy_files_and_folders`: the result is
SourceNotFound and the destination state is returned exactly as it was
(no directory created, no file written). -/
theorem source_not_found_aborts_untouched (D : Dest) (E : List String)
    (err : ErrOracle) :
    main_run none D E err = (RunResult.sourceNotFound, D) := rfl

/-- C6: the reported total is the length of the unfiltered enumeration of
every file entry of the subtree (hidden files, excluded files and files
beneath hidden subdirectories included), and on `mixedTree` the total (2)
strictly exceeds the number of files copied (1). -/
theorem total_files_is_unfiltered_count :
    (∀ (t : FSTree) (D : Dest) (E : List String) (err : ErrOracle)
      (st : WalkState) (total : Nat),
      copy_files_and_folders t D E err = Except.ok (st, total) →
        total = (allFiles [] t).length) ∧
    (copy_files_and_folders mixedTree Dest.empty [] errNone =
        Except.ok (stMixed, 2) ∧ stMixed.copied < 2) := by
  constructor
  · intro t D E err st total h
    rw [final_total t D E err st total h, countFiles_eq_length []]
  · exact ⟨run_mixedTree, by decide⟩

/-- C6 witness: the first part applied to the `mixedTree` run. -/
theorem total_files_is_unfiltered_count_witness :
    (2 : Nat) = (allFiles [] mixedTree).length :=
  total_files_is_unfiltered_count.1 mixedTree Dest.empty [] errNone stMixed 2
    run_mixedTree

/-- C7: the hidden check precedes the exclusion check: a visited file that
is hidden gets outcome SkippedHidden even when the exclusion test also
matches it, and the destination is left unchanged at that file's key. -/
theorem hidden_precedes_excluded (t : FSTree) (D : Dest) (E : List String)
    (err : ErrOracle) (st : WalkState) (total : Nat) (rel : RelPath)
    (n : String) (o : Outcome)
    (h : copy_files_and_folders t D E err = Except.ok (st, total))
    (hlog : (rel, n, o) ∈ st.log)
    (hh : is_hidden n = true)
    (hx : isExcluded n E = true) :
    o = Outcome.SkippedHidden ∧
    lookupFile st.dest.files (rel, n) = lookupFile D.files (rel, n) := by
  constructor
  · rw [final_log t D E err st total h] at hlog
    obtain ⟨f, hf, hfe⟩ := List.mem_map.mp hlog
    obtain ⟨hr, hrest⟩ := Prod.mk.inj hfe
    obtain ⟨hn, ho⟩ := Prod.mk.inj hrest
    rw [← ho]
    exact outcomeOf_of_hidden E err f (hn ▸ hh)
  · rw [final_lookup t D E err st total (rel, n) h,
      lastWrite_none_of_not_attempted E err (visitSeq [] t) rel n
        (by unfold attempted; rw [hh]; rfl),
      Option.none_or]

/-- C7 witness: the file `.tmp` with exclusion set containing `tmp` is both
hidden and excluded; its outcome is SkippedHidden and the destination stays
empty at its key. -/
theorem hidden_precedes_excluded_witness :
    Outcome.SkippedHidden = Outcome.SkippedHidden ∧
    lookupFile stHiddenExcl.dest.files ([], ".tmp") =
      lookupFile Dest.empty.files ([], ".tmp") :=
  hidden_precedes_excluded hiddenExclTree Dest.empty ["tmp"] errNone
    stHiddenExcl 1 [] ".tmp" Outcome.SkippedHidden run_hiddenExclTree
    (by decide) (by decide) excl_hiddenExcl

/-- C10: starting from a nonexistent destination, a destination directory
exists after the run exactly when some visited file that passed both skip
tests lies at or below the source directory it mirrors.  In particular a
source directory with no such file beneath it (empty, or all its files
hidden/excluded/under hidden subdirectories) gets no destination directory,
and with no such file anywhere the destination root `[]` itself is never
created. -/
theorem dest_dirs_lazy (t : FSTree) (E : List String) (err : ErrOracle)
    (st : WalkState) (total : Nat) (q : RelPath)
    (h : copy_files_and_folders t Dest.empty E err = Except.ok (st, total)) :
    (q ∈ st.dest.dirs ↔
      ∃ f ∈ visitSeq [] t, attempted E f.2.1 = true ∧
        f.1.take q.length = q) := by
  rw [final_dirs t E err st total q h]
  constructor
  · rintro ⟨f, hf, hat, hc⟩
    exact ⟨f, hf, hat, (mem_dirChain f.1 q).mp hc⟩
  · rintro ⟨f, hf, hat, hc⟩
    exact ⟨f, hf, hat, (mem_dirChain f.1 q).mpr hc⟩

/-- C10 witness: on `hiddenFileTree` (whose only file is hidden, so no copy
is attempted) the destination root is never created. -/
theorem dest_dirs_lazy_witness :
    (([] : RelPath) ∈ stHidden.dest.dirs ↔
      ∃ f ∈ visitSeq [] hiddenFileTree, attempted [] f.2.1 = true ∧
        f.1.take (List.length ([] : RelPath)) = []) :=
  dest_dirs_lazy hiddenFileTree [] errNone stHidden 1 [] run_hiddenFileTree

/-- C2 counterexample: with exclusion set containing only `b.txt`, the
non-hidden file `a.b.txt` has extension (suffix after the final dot) `txt`,
which is not a member of the exclusion set, yet the code matches the whole
filename against the glob `*.b.txt` and skips it as excluded, and it is not
copied: exclusion membership is fnmatch pattern matching, not exact string
equality of the extension. -/
theorem C2_counterexample :
    copy_files_and_folders dottedExtTree Dest.empty ["b.txt"] errNone =
      Except.ok (stDotted, 1) ∧
    specExtension "a.b.txt" = "txt" ∧
    ("txt" : String) ∉ ["b.txt"] ∧
    stDotted.log = [([], "a.b.txt", Outcome.SkippedExcluded)] ∧
    lookupFile stDotted.dest.files ([], "a.b.txt") = none :=
  ⟨run_dottedExtTree, by decide, by decide, rfl, rfl⟩

/-- C2 (amended): the exclusion decision applies CPython fnmatch glob
matching of the whole filename against `*.` followed by each exclusion
entry (for entries without wildcards or dots this coincides with an exact
case-sensitive comparison of the suffix after the final dot, but in general
it is pattern matching, not membership).  For every visited non-hidden
file: its outcome is SkippedExcluded iff that glob test matches, it is
Copied only if the test fails for every entry, and when the test matches
the file's destination key is left unchanged. -/
theorem excluded_is_glob_match (t : FSTree) (D : Dest) (E : List String)
    (err : ErrOracle) (st : WalkState) (total : Nat) (rel : RelPath)
    (n : String) (o : Outcome)
    (h : copy_files_and_folders t D E err = Except.ok (st, total))
    (hlog : (rel, n, o) ∈ st.log)
    (hh : is_hidden n = false) :
    (o = Outcome.SkippedExcluded ↔ isExcluded n E = true) ∧
    (o = Outcome.Copied → isExcluded n E = false) ∧
    (isExcluded n E = true →
      lookupFile st.dest.files (rel, n) = lookupFile D.files (rel, n)) := by
  rw [final_log t D E err st total h] at hlog
  obtain ⟨f, hf, hfe⟩ := List.mem_map.mp hlog
  obtain ⟨hr, hrest⟩ := Prod.mk.inj hfe
  obtain ⟨hn, ho⟩ := Prod.mk.inj hrest
  refine ⟨?_, ?_, ?_⟩
  · rw [← ho, ← hn]
    exact outcomeOf_excluded_iff E err f (hn ▸ hh)
  · intro hc
    rw [← ho] at hc
    have hcop := (outcomeOf_copied_iff E err f).mp hc
    unfold copies at hcop
    rw [Bool.and_eq_true] at hcop
    rw [← hn]
    exact (attempted_unpack E f.2.1 hcop.1).2
  · intro hx
    rw [final_lookup t D E err st total (rel, n) h,
      lastWrite_none_of_not_attempted E err (visitSeq [] t) rel n
        (by unfold attempted; rw [hx]; simp),
      Option.none_or]

/-- C2 witness: the amended statement on the `dottedExtTree` run. -/
theorem excluded_is_glob_match_witness :
    (Outcome.SkippedExcluded = Outcome.SkippedExcluded ↔
      isExcluded "a.b.txt" ["b.txt"] = true) ∧
    (Outcome.SkippedExcluded = Outcome.Copied →
      isExcluded "a.b.txt" ["b.txt"] = false) ∧
    (isExcluded "a.b.txt" ["b.txt"] = true →
      lookupFile stDotted.dest.files ([], "a.b.txt") =
        lookupFile Dest.empty.files ([], "a.b.txt")) :=
  excluded_is_glob_match dottedExtTree Dest.empty ["b.txt"] errNone stDotted 1
    [] "a.b.txt" Outcome.SkippedExcluded run_dottedExtTree (by decide)
    (by decide)

/-- C3: hidden subdirectories are removed from the descent set before the
walk descends (`filterVisible` before `walkSubdirs`), so every visited —
hence logged — file entry lies on a path all of whose directory components
are non-hidden, and every file record in the destination after the run
either predates the run or likewise has only non-hidden components: no file
beneath a hidden subdirectory, non-hidden or not, is ever visited, logged
individually, or copied. -/
theorem hidden_subdirs_pruned (t : FSTree) (D : Dest) (E : List String)
    (err : ErrOracle) (st : WalkState) (total : Nat)
    (h : copy_files_and_folders t D E err = Except.ok (st, total)) :
    (∀ e ∈ st.log, ∀ comp ∈ e.1, is_hidden comp = false) ∧
    (∀ e ∈ st.dest.files, e ∈ D.files ∨
      ∀ comp ∈ e.1.1, is_hidden comp = false) := by
  constructor
  · intro e he comp hcomp
    rw [final_log t D E err st total h] at he
    obtain ⟨f, hf, hfe⟩ := List.mem_map.mp he
    have hv := visitSeq_components [] t f hf
    unfold visBelow at hv
    simp only [List.length_nil, List.drop_zero, List.all_eq_true] at hv
    have he1 : e.1 = f.1 := by rw [← hfe]
    rw [he1] at hcomp
    have hb := hv comp hcomp
    rwa [Bool.not_eq_true'] at hb
  · intro e he
    rcases final_files_sub t D E err st total e h he with hD | ⟨f, hf, -, hk⟩
    · exact Or.inl hD
    · refine Or.inr ?_
      intro comp hcomp
      have hv := visitSeq_components [] t f hf
      unfold visBelow at hv
      simp only [List.length_nil, List.drop_zero, List.all_eq_true] at hv
      have he1 : e.1.1 = f.1 := by rw [hk]
      rw [he1] at hcomp
      have hb := hv comp hcomp
      rwa [Bool.not_eq_true'] at hb

/-- C3 witness: the statement on the `prunedTree` run, whose `.git` subtree
(containing the non-hidden file `config`) is pruned. -/
theorem hidden_subdirs_pruned_witness :
    (∀ e ∈ stPruned.log, ∀ comp ∈ e.1, is_hidden comp = false) ∧
    (∀ e ∈ stPruned.dest.files, e ∈ Dest.empty.files ∨
      ∀ comp ∈ e.1.1, is_hidden comp = false) :=
  hidden_subdirs_pruned prunedTree Dest.empty [] errNone stPruned 2
    run_prunedTree

/-- An oracle under which only the file named `bad.txt` fails, with
PermissionError. -/
def errBad : ErrOracle :=
  fun _ n => if n = "bad.txt" then some CopyErr.permission else none

/-- A tree with one file that copies and one file whose copy fails under
`errBad`. -/
def twoFileTree : FSTree :=
  FSTree.mk [("ok.txt", "o"), ("bad.txt", "b")] SubdirList.nil

/-- Visit sequence of `twoFileTree`. -/
theorem visit_twoFileTree :
    visitSeq [] twoFileTree = [([], "ok.txt", "o"), ([], "bad.txt", "b")] := by
  simp [visitSeq, visitSeqL, filterVisible, twoFileTree]

/-- The state after running on `twoFileTree` under `errBad`: the failing
file is logged SkippedPermissionDenied, not counted, not written; the
sibling after it still copies nothing is aborted. -/
def stTwo : WalkState :=
  { dest := { dirs := [[]], files := [(([], "ok.txt"), "o")] },
    copied := 1, progress := 2,
    log := [([], "ok.txt", Outcome.Copied),
      ([], "bad.txt", Outcome.SkippedPermissionDenied)] }

/-- The state after running on `twoFileTree` with no failures. -/
def stTwoOk : WalkState :=
  { dest := { dirs := [[]],
              files := [(([], "ok.txt"), "o"), (([], "bad.txt"), "b")] },
    copied := 2, progress := 2,
    log := [([], "ok.txt", Outcome.Copied),
      ([], "bad.txt", Outcome.Copied)] }

/-- Run on `twoFileTree` under `errBad`. -/
theorem run_twoFileTreeBad :
    copy_files_and_folders twoFileTree Dest.empty [] errBad =
      Except.ok (stTwo, 2) := by
  rw [copy_eq, visit_twoFileTree]
  simp only [Except.ok.injEq, Prod.mk.injEq]
  exact ⟨by decide, by decide⟩

/-- Run on `twoFileTree` with no failures. -/
theorem run_twoFileTreeOk :
    copy_files_and_folders twoFileTree Dest.empty [] errNone =
      Except.ok (stTwoOk, 2) := by
  rw [copy_eq, visit_twoFileTree]
  simp only [Except.ok.injEq, Prod.mk.injEq]
  exact ⟨by decide, by decide⟩

/-- C4: a failing copy never aborts the walk, is recorded, and is counted
as not copied.  For a visited file g that passes both skip tests and whose
copy raises e: its log record carries outcome SkippedPermissionDenied for a
PermissionError and SkippedOtherError for any other exception; it does not
count as a successful copy, and the copied_files counter counts exactly the
successful copies (so g contributes nothing to it).  Moreover the visited
sequence of (path, name) pairs in the log is the same under any two failure
oracles — failures change outcomes, never which files are visited — and
every visited file f that passes both skip tests and whose copy does not
fail ends up present in the destination with its content (the
content-uniqueness hypothesis rules out two same-named files in one
directory with different contents, which a real filesystem cannot
present). -/
theorem copy_failure_never_aborts (t : FSTree) (D : Dest) (E : List String)
    (err err2 : ErrOracle) (st st2 : WalkState) (total total2 : Nat)
    (f g : Entry) (e : CopyErr)
    (h : copy_files_and_folders t D E err = Except.ok (st, total))
    (h2 : copy_files_and_folders t D E err2 = Except.ok (st2, total2))
    (hf : f ∈ visitSeq [] t)
    (hat : attempted E f.2.1 = true)
    (hok : err f.1 f.2.1 = none)
    (huc : ∀ x ∈ visitSeq [] t, x.1 = f.1 → x.2.1 = f.2.1 → x.2.2 = f.2.2)
    (hg : g ∈ visitSeq [] t)
    (hgat : attempted E g.2.1 = true)
    (hge : err g.1 g.2.1 = some e) :
    (g.1, g.2.1, if e = CopyErr.permission then Outcome.SkippedPermissionDenied
      else Outcome.SkippedOtherError) ∈ st.log ∧
    copies E err g = false ∧
    st.copied = (visitSeq [] t).countP (fun x => copies E err x) ∧
    st.log.map (fun x => (x.1, x.2.1)) = st2.log.map (fun x => (x.1, x.2.1)) ∧
    lookupFile st.dest.files (f.1, f.2.1) = some f.2.2 := by
  have hout : outcomeOf E err g =
      (if e = CopyErr.permission then Outcome.SkippedPermissionDenied
       else Outcome.SkippedOtherError) := by
    obtain ⟨hh, hx⟩ := attempted_unpack E g.2.1 hgat
    unfold outcomeOf
    rw [hh, hx]
    simp only [Bool.false_eq_true, if_false]
    rw [hge]
    cases e with
    | permission => rfl
    | other => rfl
  refine ⟨?_, ?_, final_copied t D E err st total h, ?_, ?_⟩
  · rw [final_log t D E err st total h]
    exact List.mem_map.mpr ⟨g, hg, by rw [hout]⟩
  · unfold copies
    rw [hge]
    simp
  · rw [final_log t D E err st total h, final_log t D E err2 st2 total2 h2,
      List.map_map, List.map_map]
    rfl
  · rw [final_lookup t D E err st total (f.1, f.2.1) h]
    have hcop : copies E err f = true := by
      unfold copies
      rw [hat, hok]
      rfl
    have hw : writeOf E err f (f.1, f.2.1) = some f.2.2 := by
      unfold writeOf
      rw [if_pos ⟨hcop, rfl⟩]
    rw [lastWrite_of_mem E err (visitSeq [] t) (f.1, f.2.1) f.2.2 f hf hw ?_]
    · rfl
    · intro x hx
      cases hgw : writeOf E err x (f.1, f.2.1) with
      | none => exact Or.inl rfl
      | some c2 =>
          obtain ⟨hgc, hgk, hgct⟩ := writeOf_eq_some E err x (f.1, f.2.1) c2 hgw
          obtain ⟨hg1, hg2⟩ := Prod.mk.inj hgk
          refine Or.inr ?_
          have hc2 : c2 = f.2.2 := hgct.symm.trans (huc x hx hg1 hg2)
          rw [hc2]

/-- C4 witness: on `twoFileTree` under `errBad`, the failing `bad.txt` is
logged SkippedPermissionDenied and not counted (copied counts exactly the
successful copies), the visited (path, name) sequence matches the
no-failure run, and the sibling `ok.txt` lands in the destination. -/
theorem copy_failure_never_aborts_witness :
    ([], "bad.txt", Outcome.SkippedPermissionDenied) ∈ stTwo.log ∧
    copies [] errBad ([], "bad.txt", "b") = false ∧
    stTwo.copied = (visitSeq [] twoFileTree).countP
      (fun x => copies [] errBad x) ∧
    stTwo.log.map (fun x => (x.1, x.2.1)) =
      stTwoOk.log.map (fun x => (x.1, x.2.1)) ∧
    lookupFile stTwo.dest.files ([], "ok.txt") = some "o" :=
  copy_failure_never_aborts twoFileTree Dest.empty [] errBad errNone
    stTwo stTwoOk 2 2 ([], "ok.txt", "o") ([], "bad.txt", "b")
    CopyErr.permission run_twoFileTreeBad run_twoFileTreeOk
    (by rw [visit_twoFileTree]; decide) (by decide) (by decide)
    (by rw [visit_twoFileTree]; decide)
    (by rw [visit_twoFileTree]; decide) (by decide) (by decide)

/-- The log outcome equals Copied (as a boolean test) exactly when the copy
succeeds. -/
theorem outcome_beq_copied (E : List String) (err : ErrOracle) (f : Entry) :
    (outcomeOf E err f == Outcome.Copied) = copies E err f := by
  by_cases hc : copies E err f = true
  · rw [(outcomeOf_copied_iff E err f).mpr hc, hc]
    rfl
  · have hnc : copies E err f = false := Bool.eq_false_iff.mpr hc
    rw [hnc]
    cases ho : outcomeOf E err f with
    | Copied => exact absurd ((outcomeOf_copied_iff E err f).mp ho) hc
    | SkippedHidden => rfl
    | SkippedExcluded => rfl
    | SkippedPermissionDenied => rfl
    | SkippedOtherError => rfl

/-- Fixture for the C8 witness: the nested-tree visit sequence. -/
theorem visit_nestedTree :
    visitSeq [] nestedTree =
      [([], "a.txt", "1"), (["sub"], "b.txt", "2")] := by
  have hs : is_hidden "sub" = false := by decide
  simp [visitSeq, visitSeqL, filterVisible, nestedTree, hs]

/-- The state after running on `nestedTree` with no exclusions. -/
def stNested : WalkState :=
  { dest := { dirs := [[], ["sub"]],
              files := [(([], "a.txt"), "1"), ((["sub"], "b.txt"), "2")] },
    copied := 2, progress := 2,
    log := [([], "a.txt", Outcome.Copied), (["sub"], "b.txt", Outcome.Copied)] }

/-- Run on `nestedTree`: both files copy, both directories exist. -/
theorem run_nestedTree :
    copy_files_and_folders nestedTree Dest.empty [] errNone =
      Except.ok (stNested, 2) := by
  rw [copy_eq, visit_nestedTree]
  simp only [Except.ok.injEq, Prod.mk.injEq]
  exact ⟨by decide, by decide⟩

/-- C8: replication is idempotent.  A second run over the same tree,
exclusions and failure oracle, starting from the destination the first run
produced, completes without error (in particular without FileExistsError:
the `os.path.exists` guard skips `os.makedirs` for every directory, which
the first run already created), leaves the directory list exactly as it
was, maps every destination key to the same content, and preserves key
uniqueness — the same set of files, no duplicates. -/
theorem replicate_idempotent (t : FSTree) (D : Dest) (E : List String)
    (err : ErrOracle) (st1 : WalkState) (tot1 : Nat)
    (h1 : copy_files_and_folders t D E err = Except.ok (st1, tot1)) :
    ∃ st2, copy_files_and_folders t st1.dest E err =
        Except.ok (st2, countFiles t) ∧
      st2.dest.dirs = st1.dest.dirs ∧
      (∀ k, lookupFile st2.dest.files k = lookupFile st1.dest.files k) ∧
      ((D.files.map Prod.fst).Nodup →
        (st2.dest.files.map Prod.fst).Nodup) := by
  obtain ⟨hst1, -⟩ := run_inj t D E err st1 tot1 h1
  refine ⟨_, copy_eq t st1.dest E err, ?_, ?_, ?_⟩
  · apply foldl_dirs_noop
    intro f hf hat
    show f.1 ∈ st1.dest.dirs
    rw [hst1]
    exact foldl_dirs_complete E err (visitSeq [] t) (initState D) f hf hat
  · intro k
    rw [foldl_files_lookup]
    have hl1 : lookupFile st1.dest.files k =
        (lastWrite E err (visitSeq [] t) k).or (lookupFile D.files k) := by
      rw [hst1, foldl_files_lookup]
      rfl
    cases hlw : lastWrite E err (visitSeq [] t) k with
    | some c =>
        rw [Option.or_some, hl1, hlw, Option.or_some]
    | none =>
        rw [Option.none_or]
        rfl
  · intro hD
    apply foldl_nodup
    show (st1.dest.files.map Prod.fst).Nodup
    rw [hst1]
    exact foldl_nodup E err (visitSeq [] t) (initState D) hD

/-- C8 witness: the idempotence statement on the `nestedTree` run. -/
theorem replicate_idempotent_witness :
    ∃ st2, copy_files_and_folders nestedTree stNested.dest [] errNone =
        Except.ok (st2, countFiles nestedTree) ∧
      st2.dest.dirs = stNested.dest.dirs ∧
      (∀ k, lookupFile st2.dest.files k = lookupFile stNested.dest.files k) ∧
      ((Dest.empty.files.map Prod.fst).Nodup →
        (st2.dest.files.map Prod.fst).Nodup) :=
  replicate_idempotent nestedTree Dest.empty [] errNone stNested 2
    run_nestedTree

/-- C9 counterexample: on `emptyHiddenDirTree` (a copyable file next to an
EMPTY hidden subdirectory `.e`) the run ends with copied_files = 1 =
total_files, yet the tree does contain a hidden entry — so the claim
"copied_files == total_files iff no entry in the source tree is hidden,
excluded, or fails to copy" is false as stated: an empty hidden directory
is a hidden entry that does not disturb the equality. -/
theorem C9_counterexample :
    copy_files_and_folders emptyHiddenDirTree Dest.empty [] errNone =
      Except.ok (stEmptyHidden, 1) ∧
    stEmptyHidden.copied = 1 ∧
    hasHiddenEntry emptyHiddenDirTree = true :=
  ⟨run_emptyHiddenDirTree, rfl, by decide⟩

/-- C9 (amended): copied_files counts exactly the log records with outcome
Copied, every log prefix — hence every point of the walk — has at most
total_files of them, copied_files ≤ total_files at completion, and
copied_files = total_files iff every FILE entry of the tree lies under no
hidden directory, is itself neither hidden nor excluded, and its copy does
not fail.  (Hidden directories with no files beneath them do not disturb
the equality, which is what the counterexample forces the claim to
concede.) -/
theorem copied_le_total_iff (t : FSTree) (D : Dest) (E : List String)
    (err : ErrOracle) (st : WalkState) (total : Nat)
    (h : copy_files_and_folders t D E err = Except.ok (st, total)) :
    st.copied = st.log.countP (fun e => e.2.2 == Outcome.Copied) ∧
    (∀ m, (st.log.take m).countP (fun e => e.2.2 == Outcome.Copied) ≤ total) ∧
    st.copied ≤ total ∧
    (st.copied = total ↔ ∀ f ∈ allFiles [] t,
      visBelow [] f = true ∧ attempted E f.2.1 = true ∧
        err f.1 f.2.1 = none) := by
  have hlogcount : st.log.countP (fun e => e.2.2 == Outcome.Copied) =
      (visitSeq [] t).countP (fun f => copies E err f) := by
    rw [final_log t D E err st total h, List.countP_map]
    apply List.countP_congr
    intro f _
    constructor
    · intro ha
      have ha2 : (outcomeOf E err f == Outcome.Copied) = true := ha
      rwa [outcome_beq_copied E err f] at ha2
    · intro hb
      show (outcomeOf E err f == Outcome.Copied) = true
      rw [outcome_beq_copied E err f]
      exact hb
  have hcopied := final_copied t D E err st total h
  have htotal : total = (allFiles [] t).length := by
    rw [final_total t D E err st total h, countFiles_eq_length []]
  have hvislen : (visitSeq [] t).length ≤ (allFiles [] t).length := by
    rw [visitSeq_eq_filter]
    exact List.length_filter_le _ _
  have hloglen : st.log.length = (visitSeq [] t).length := by
    rw [final_log t D E err st total h, List.length_map]
  refine ⟨?_, ?_, ?_, ?_⟩
  · rw [hcopied, hlogcount]
  · intro m
    calc (st.log.take m).countP (fun e => e.2.2 == Outcome.Copied)
        ≤ (st.log.take m).length := List.countP_le_length _
      _ ≤ st.log.length := by
          rw [List.length_take]
          omega
      _ = (visitSeq [] t).length := hloglen
      _ ≤ (allFiles [] t).length := hvislen
      _ = total := htotal.symm
  · calc st.copied = (visitSeq [] t).countP (fun f => copies E err f) := hcopied
      _ ≤ (visitSeq [] t).length := List.countP_le_length _
      _ ≤ (allFiles [] t).length := hvislen
      _ = total := htotal.symm
  · rw [hcopied, htotal, visitSeq_eq_filter, List.countP_filter,
      List.countP_eq_length]
    constructor
    · intro hall f hf
      have hp := hall f hf
      rw [Bool.and_eq_true] at hp
      obtain ⟨hcop, hvis⟩ := hp
      unfold copies at hcop
      rw [Bool.and_eq_true] at hcop
      exact ⟨hvis, hcop.1, Option.isNone_iff_eq_none.mp hcop.2⟩
    · intro hall f hf
      obtain ⟨hvis, hat, he⟩ := hall f hf
      rw [Bool.and_eq_true]
      refine ⟨?_, hvis⟩
      unfold copies
      rw [Bool.and_eq_true]
      exact ⟨hat, Option.isNone_iff_eq_none.mpr he⟩

/-- C9 witness: the amended statement on the `prunedTree` run (copied = 1 <
2 = total, and indeed the file `config` under the hidden directory `.git`
violates the right-hand side). -/
theorem copied_le_total_iff_witness :
    stPruned.copied = stPruned.log.countP (fun e => e.2.2 == Outcome.Copied) ∧
    (∀ m, (stPruned.log.take m).countP
      (fun e => e.2.2 == Outcome.Copied) ≤ 2) ∧
    stPruned.copied ≤ 2 ∧
    (stPruned.copied = 2 ↔ ∀ f ∈ allFiles [] prunedTree,
      visBelow [] f = true ∧ attempted [] f.2.1 = true ∧
        errNone f.1 f.2.1 = none) :=
  copied_le_total_iff prunedTree Dest.empty [] errNone stPruned 2
    run_prunedTree

end CopyClone
